import Mathlib

/-!
Shallow embedding of `StateMachineImpl` / `State` from
`typescript-state-machine` (`src/stateMachine.ts`).

Modelling conventions:
* A JS `State` object is modelled as a structure carrying a numeric `id`
  (standing for the object's reference identity; distinct objects get
  distinct ids) plus its `label`.  JS `===` on states is structural
  equality of this record.  The display-only `parent` / `toString`
  machinery is never consulted by the engine and is elided.
* `validTransitions` and `_transitionListeners` are JS objects keyed by
  strings; they are modelled as association lists with first-match lookup
  (`lookupA`) and insert-or-replace update (`storeA`).
* Indexing a JS object at a missing key yields `undefined`; calling
  `.indexOf` on it throws a `TypeError`.  `canGoToState` therefore
  returns `Except JsError Bool`, and `setState` returns the (unchanged)
  machine together with `some` error when the source throws.
* Listener callbacks are modelled by a small effect record `Callback`
  covering exactly what the callbacks relevant to the specification do:
  optionally emit an observable event (a user callback invocation,
  recorded in `trace` together with the machine state at call time),
  optionally throw, cancel a set of registrations by id, mark promise
  records finished, and resolve promise records.  Reentrant `setState`
  from a callback is outside the claims and not representable here.
* The source's dispatch loop iterates the *live* array with
  `splice`-compaction of inactive records.  Callbacks can only flip
  `active` flags (never insert), so the loop is rendered as structural
  recursion over the remaining suffix, threading every cancellation
  through the processed prefix, the current record, the remaining suffix
  and the rest of the registry; the result list is stored back at the end.
* A JS `Promise` resolves at most once; `resolveCalls` additionally
  counts how many times `resolve` was *invoked*, and `resolvedWith`
  records the value of the first invocation.
-/

structure State where
  id : Nat
  label : String
deriving DecidableEq, Repr

inductive JsError where
  | invalidTransition (fromS toS : State)
  | typeError
deriving DecidableEq, Repr

structure Callback where
  emits : Option Nat
  throws : Bool
  cancels : List Nat
  setsFinished : List Nat
  resolves : List Nat
deriving DecidableEq, Repr

structure TransitionListener where
  regId : Nat
  fromState : Option State
  toState : Option State
  active : Bool
  callBack : Callback
deriving DecidableEq, Repr

structure PromiseRec where
  pid : Nat
  resolvedWith : Option State
  resolveCalls : Nat
  finished : Bool
deriving DecidableEq, Repr

structure TraceEntry where
  tag : Nat
  fromS : State
  toS : State
  stateAtCall : State
deriving DecidableEq, Repr

structure Machine where
  states : List State
  validTransitions : List (String × List State)
  state : State
  listeners : List (String × List TransitionListener)
  nextRegId : Nat
  promises : List PromiseRec
  nextPid : Nat
  trace : List TraceEntry
  errorsLogged : Nat
deriving DecidableEq, Repr

/-- First-match association-list lookup (JS object property read). -/
def lookupA {α β : Type} [DecidableEq α] : List (α × β) → α → Option β
  | [], _ => none
  | (k, v) :: rest, key => if key = k then some v else lookupA rest key

/-- Insert-or-replace association-list update (JS object property write). -/
def storeA {α β : Type} [DecidableEq α] (l : List (α × β)) (key : α) (v : β) :
    List (α × β) :=
  if l.any (fun p => decide (p.1 = key)) then
    l.map (fun p => if p.1 = key then (key, v) else p)
  else l ++ [(key, v)]

def starStr : String := "*"

def arrowStr : String := " --> "

/-- The `(state && state.label) || '*'` fallback: a missing state, or a
state whose label is falsy (the empty string), renders as the wildcard. -/
def labelOrStar : Option State → String
  | none => starStr
  | some s => if s.label = "" then starStr else s.label

/-- `StateMachineImpl.transitionLabel`. -/
def transitionLabel (fromState toState : Option State) : String :=
  labelOrStar fromState ++ arrowStr ++ labelOrStar toState

/-- The listener array stored under `key` (absent key reads as `[]` only
for convenience of statements; dispatch distinguishes absence itself). -/
def getL (m : Machine) (key : String) : List TransitionListener :=
  (lookupA m.listeners key).getD []

/-- Effect of `registration.cancel()` on one listener record. -/
def cancelOne (cs : List Nat) (r : TransitionListener) : TransitionListener :=
  if r.regId ∈ cs then { r with active := false } else r

def applyCancels (cs : List Nat) (l : List TransitionListener) :
    List TransitionListener :=
  l.map (cancelOne cs)

def cancelInMachine (m : Machine) (cs : List Nat) : Machine :=
  { m with listeners := m.listeners.map (fun kl => (kl.1, applyCancels cs kl.2)) }

/-- `cancel()` of the handle returned by `addTransitionListener`. -/
def cancelRegistration (m : Machine) (regId : Nat) : Machine :=
  cancelInMachine m [regId]

def updPromise (m : Machine) (pid : Nat) (f : PromiseRec → PromiseRec) : Machine :=
  { m with promises := m.promises.map (fun p => if p.pid = pid then f p else p) }

/-- `resolve(s)` on the promise `pid`: counted always, value kept only if
this is the first resolution (JS promises resolve at most once). -/
def doResolve (m : Machine) (pid : Nat) (s : State) : Machine :=
  updPromise m pid (fun p =>
    { p with
      resolveCalls := p.resolveCalls + 1,
      resolvedWith := match p.resolvedWith with | none => some s | some x => some x })

def markFinished (m : Machine) (pid : Nat) : Machine :=
  updPromise m pid (fun p => { p with finished := true })

def recordEmit (m : Machine) (fromS toS : State) : Option Nat → Machine
  | none => m
  | some tag => { m with trace := m.trace ++ [⟨tag, fromS, toS, m.state⟩] }

/-- Running one callback body `listener.callBack(fromState, toState)`:
its observable emission, promise effects, and (caught) throw.
Registration-flag effects (`cancels`) are applied by the dispatch loop. -/
def invokeEffects (m : Machine) (fromS toS : State) (cb : Callback) : Machine :=
  let m1 := recordEmit m fromS toS cb.emits
  let m2 := cb.setsFinished.foldl (fun mm pid => markFinished mm pid) m1
  let m3 := cb.resolves.foldl (fun mm pid => doResolve mm pid toS) m2
  if cb.throws then { m3 with errorsLogged := m3.errorsLogged + 1 } else m3

/-- The live-array loop of `invokeTransitionListeners`: an active record
is invoked (a throw is caught and logged) and kept; an inactive record is
spliced out.  Cancellations performed by the invoked callback are applied
to the processed prefix, the current record, the remaining suffix and the
whole registry, which is exactly the reach of the shared mutable records
in the source. -/
def dispatchGo (fromS toS : State) :
    Nat → Machine → List TransitionListener → List TransitionListener →
    Machine × List TransitionListener
  | _, m, done, [] => (m, done)
  | 0, m, done, _ :: _ => (m, done)
  | fuel + 1, m, done, r :: rest =>
    if r.active then
      dispatchGo fromS toS fuel
        (cancelInMachine (invokeEffects m fromS toS r.callBack) r.callBack.cancels)
        (applyCancels r.callBack.cancels (done ++ [r]))
        (applyCancels r.callBack.cancels rest)
    else
      dispatchGo fromS toS fuel m done rest

/-- The loop runs with fuel equal to the length of the remaining list;
cancellations only flip flags, so the length — and hence the fuel bound —
is exact, and the zero-fuel non-empty case is unreachable. -/
def dispatchList (fromS toS : State)
    (m : Machine) (done rest : List TransitionListener) :
    Machine × List TransitionListener :=
  dispatchGo fromS toS rest.length m done rest

/-- `StateMachineImpl.invokeTransitionListeners` (the `if (listeners)`
guard skips absent keys; present keys get the compacted array back). -/
def invokeTransitionListeners (m : Machine) (fromS toS : State) (key : String) :
    Machine :=
  match lookupA m.listeners key with
  | none => m
  | some l =>
    let md := dispatchList fromS toS m [] l
    { md.1 with listeners := storeA md.1.listeners key md.2 }

/-- `StateMachineImpl.invokeAllTransitionListeners`: the four probe keys,
in source order. -/
def invokeAllTransitionListeners (m : Machine) (fromS toS : State) : Machine :=
  let m1 := invokeTransitionListeners m fromS toS (transitionLabel (some fromS) none)
  let m2 := invokeTransitionListeners m1 fromS toS (transitionLabel (some fromS) (some toS))
  let m3 := invokeTransitionListeners m2 fromS toS (transitionLabel none (some toS))
  invokeTransitionListeners m3 fromS toS (transitionLabel none none)

/-- `StateMachineImpl.canGoToState`:
`this.validTransitions[this._state.label].indexOf(newState) !== -1`.
A missing table entry makes the `.indexOf` call throw a `TypeError`. -/
def canGoToState (m : Machine) (newState : State) : Except JsError Bool :=
  match lookupA m.validTransitions m.state.label with
  | none => Except.error JsError.typeError
  | some ts => Except.ok (decide (newState ∈ ts))

/-- `StateMachineImpl.setState`: check (`checkTransition`), then assign
`_state`, then dispatch.  On a throw the machine is returned unchanged
together with the error. -/
def setState (m : Machine) (newState : State) : Machine × Option JsError :=
  match canGoToState m newState with
  | Except.error e => (m, some e)
  | Except.ok false => (m, some (JsError.invalidTransition m.state newState))
  | Except.ok true =>
    let oldState := m.state
    let m1 := { m with state := newState }
    (invokeAllTransitionListeners m1 oldState newState, none)

/-- `StateMachineImpl.addTransitionListener`; the returned `Nat` is the
registration handle (its `cancel()` is `cancelRegistration` at that id). -/
def addTransitionListener (m : Machine) (cb : Callback)
    (fromState toState : Option State) : Machine × Nat :=
  let transition := transitionLabel fromState toState
  let r : TransitionListener := ⟨m.nextRegId, fromState, toState, true, cb⟩
  ({ m with
      listeners := storeA m.listeners transition (getL m transition ++ [r]),
      nextRegId := m.nextRegId + 1 },
   m.nextRegId)

def onEnterState (m : Machine) (s : State) (cb : Callback) : Machine × Nat :=
  addTransitionListener m cb none (some s)

def onLeaveState (m : Machine) (s : State) (cb : Callback) : Machine × Nat :=
  addTransitionListener m cb (some s) none

def onTransition (m : Machine) (a b : State) (cb : Callback) : Machine × Nat :=
  addTransitionListener m cb (some a) (some b)

def onAnyTransition (m : Machine) (cb : Callback) : Machine × Nat :=
  addTransitionListener m cb none none

def inState (m : Machine) (s : State) : Bool :=
  decide (m.state = s)

def inOneOfStates (m : Machine) (ss : List State) : Bool :=
  decide (m.state ∈ ss)

def newPromise (m : Machine) : Machine × Nat :=
  ({ m with
      promises := m.promises ++ [⟨m.nextPid, none, 0, false⟩],
      nextPid := m.nextPid + 1 },
   m.nextPid)

def promiseRec (m : Machine) (pid : Nat) : Option PromiseRec :=
  m.promises.find? (fun p => decide (p.pid = pid))

def getFinished (m : Machine) (pid : Nat) : Bool :=
  ((promiseRec m pid).map (fun p => p.finished)).getD false

def resolveCallsOf (m : Machine) (pid : Nat) : Nat :=
  ((promiseRec m pid).map (fun p => p.resolveCalls)).getD 0

def resolvedWithOf (m : Machine) (pid : Nat) : Option State :=
  (promiseRec m pid).bind (fun p => p.resolvedWith)

/-- `StateMachineImpl.waitUntilLeft`.  The executor runs synchronously:
if the current state already differs (by identity) it resolves at once,
otherwise it registers a leave-listener whose callback cancels its own
registration and resolves with the entered state. -/
def waitUntilLeft (m : Machine) (s : State) : Machine × Nat :=
  let mp := newPromise m
  if mp.1.state ≠ s then (doResolve mp.1 mp.2 mp.1.state, mp.2)
  else
    let cb : Callback := ⟨none, false, [mp.1.nextRegId], [], [mp.2]⟩
    ((onLeaveState mp.1 s cb).1, mp.2)

/-- The callback registered per candidate by `waitUntilEnteredOneOf`:
it cancels its own registration and every sibling (the source does
`registration.cancel()` then `registrations.forEach(...)`; since
`onEnterState` never fires during registration, the `registrations`
array at fire time holds exactly all candidates' handles, so the set of
cancelled ids is `allIds`), marks `finished`, and resolves the promise
with the entered state. -/
def enterWaitCallback (allIds : List Nat) (pid : Nat) : Callback :=
  ⟨none, false, allIds, [pid], [pid]⟩

/-- The registration loop of `waitUntilEnteredOneOf`, including the
source's `if (finished) break` check after each registration. -/
def waitRegLoop (pid : Nat) (allIds : List Nat) :
    Machine → List State → Machine
  | m, [] => m
  | m, s :: rest =>
    let m1 := (onEnterState m s (enterWaitCallback allIds pid)).1
    if getFinished m1 pid then m1 else waitRegLoop pid allIds m1 rest

/-- `StateMachineImpl.waitUntilEnteredOneOf`. -/
def waitUntilEnteredOneOf (m : Machine) (ss : List State) : Machine × Nat :=
  let mp := newPromise m
  if mp.1.state ∈ ss then (doResolve mp.1 mp.2 mp.1.state, mp.2)
  else (waitRegLoop mp.2 (List.range' mp.1.nextRegId ss.length) mp.1 ss, mp.2)

/-- `StateMachineImpl.waitUntilEntered`. -/
def waitUntilEntered (m : Machine) (s : State) : Machine × Nat :=
  waitUntilEnteredOneOf m [s]

/-- The constructor of `StateMachineImpl`. -/
def mkMachine (states : List State) (validTransitions : List (String × List State))
    (initialState : State) : Machine :=
  ⟨states, validTransitions, initialState, [], 0, [], 0, [], 0⟩

/-- One engine operation of the public surface (queries are pure and do
not appear: they cannot change the machine). -/
inductive Op where
  | setStateOp (s : State)
  | onEnterOp (s : State) (cb : Callback)
  | onLeaveOp (s : State) (cb : Callback)
  | onTransitionOp (a b : State) (cb : Callback)
  | onAnyOp (cb : Callback)
  | cancelOp (regId : Nat)
  | waitLeftOp (s : State)
  | waitEnteredOp (s : State)
  | waitEnteredOneOfOp (ss : List State)

/-- Applying one operation; a throwing `setState` leaves the machine
unchanged (the caller catches the error). -/
def applyOp (m : Machine) : Op → Machine
  | .setStateOp s => (setState m s).1
  | .onEnterOp s cb => (onEnterState m s cb).1
  | .onLeaveOp s cb => (onLeaveState m s cb).1
  | .onTransitionOp a b cb => (onTransition m a b cb).1
  | .onAnyOp cb => (onAnyTransition m cb).1
  | .cancelOp regId => cancelRegistration m regId
  | .waitLeftOp s => (waitUntilLeft m s).1
  | .waitEnteredOp s => (waitUntilEntered m s).1
  | .waitEnteredOneOfOp ss => (waitUntilEnteredOneOf m ss).1

def runOps (m : Machine) (ops : List Op) : Machine := ops.foldl applyOp m

/-- Applying a sequence of `setState` calls, each failure being caught
and ignored by the caller. -/
def applySetStates (m : Machine) (targets : List State) : Machine :=
  targets.foldl (fun mm s => (setState mm s).1) m

/-- Applying a sequence of `setState` calls, stopping at the first throw. -/
def setStateSeq (m : Machine) : List State → Machine × Option JsError
  | [] => (m, none)
  | s :: rest =>
    match setState m s with
    | (m1, none) => setStateSeq m1 rest
    | (m1, some e) => (m1, some e)

/-- A path is table-conformant from `cur`: each next state is a member
(by identity) of the table entry of the previous state's label. -/
def Conformant (t : List (String × List State)) : State → List State → Prop
  | _, [] => True
  | cur, s :: rest =>
    (∃ ts, lookupA t cur.label = some ts ∧ s ∈ ts) ∧ Conformant t s rest

/-- Reachability via zero or more table transitions. -/
inductive Reachable (t : List (String × List State)) (init : State) : State → Prop
  | refl : Reachable t init init
  | step {a b : State} {ts : List State} (ha : Reachable t init a)
      (hl : lookupA t a.label = some ts) (hb : b ∈ ts) : Reachable t init b

/-- A callback that only emits and possibly throws (an ordinary user
listener that does not touch registrations or promises). -/
def TameCb (cb : Callback) : Prop :=
  cb.cancels = [] ∧ cb.setsFinished = [] ∧ cb.resolves = []

def AllTame (m : Machine) : Prop :=
  ∀ kl ∈ m.listeners, ∀ r ∈ kl.2, TameCb r.callBack

/-- A record that neither resolves promise `pid` nor cancels any
registration id `≥ R`. -/
def QuietRec (pid R : Nat) (r : TransitionListener) : Prop :=
  pid ∉ r.callBack.resolves ∧ ∀ c ∈ r.callBack.cancels, c < R

def QuietList (pid R : Nat) (l : List TransitionListener) : Prop :=
  ∀ r ∈ l, r.active = true → QuietRec pid R r

def MQuiet (pid R : Nat) (m : Machine) : Prop :=
  ∀ kl ∈ m.listeners, QuietList pid R kl.2

/-- Well-formedness every machine built through the public surface has:
all allocated registration ids and promise ids are below the counters,
and callbacks only reference already-allocated ids (a JS closure can only
hold handles that exist). -/
def MachineFresh (m : Machine) : Prop :=
  (∀ kl ∈ m.listeners, ∀ r ∈ kl.2,
    r.regId < m.nextRegId ∧ (∀ c ∈ r.callBack.cancels, c < m.nextRegId) ∧
      ∀ p ∈ r.callBack.resolves, p < m.nextPid) ∧
  ∀ p ∈ m.promises, p.pid < m.nextPid

/-- An ordinary display label: non-empty and free of the wildcard
character, hence never colliding with the `'*'` marker. -/
def PlainLabel (s : String) : Prop :=
  s ≠ "" ∧ '*' ∉ s.data

/-- The user-callback invocations a dispatch pass over `l` performs, in
order, when no callback cancels anything. -/
def emittedTrace (fromS toS stateAt : State) (l : List TransitionListener) :
    List TraceEntry :=
  (l.filter (fun r => r.active)).filterMap
    (fun r => r.callBack.emits.map (fun tag => ⟨tag, fromS, toS, stateAt⟩))

def throwCount (l : List TransitionListener) : Nat :=
  ((l.filter (fun r => r.active)).filter (fun r => r.callBack.throws)).length

/-! Association-list infrastructure. -/

theorem lookupA_mem {α β : Type} [DecidableEq α] {l : List (α × β)} {k : α} {v : β}
    (h : lookupA l k = some v) : (k, v) ∈ l := by
  induction l with
  | nil => simp [lookupA] at h
  | cons p rest ih =>
    rw [lookupA] at h
    by_cases hk : k = p.1
    · simp [hk] at h
      subst hk h
      exact List.mem_cons_self _ _
    · simp [hk] at h
      exact List.mem_cons_of_mem _ (ih h)

theorem lookupA_append_of_none {α β : Type} [DecidableEq α] {l1 : List (α × β)}
    (l2 : List (α × β)) {k : α} (h : lookupA l1 k = none) :
    lookupA (l1 ++ l2) k = lookupA l2 k := by
  induction l1 with
  | nil => simp
  | cons p rest ih =>
    rw [lookupA] at h
    by_cases hk : k = p.1
    · simp [hk] at h
    · rw [List.cons_append, lookupA, if_neg hk]
      exact ih (by simpa [hk] using h)

theorem lookupA_any_false {α β : Type} [DecidableEq α] {l : List (α × β)} {k : α}
    (h : l.any (fun p => decide (p.1 = k)) = false) : lookupA l k = none := by
  induction l with
  | nil => rfl
  | cons p rest ih =>
    simp only [List.any_cons, Bool.or_eq_false_iff, decide_eq_false_iff_not] at h
    rw [lookupA, if_neg (fun hk => h.1 hk.symm), ih h.2]

theorem lookupA_append_of_some {α β : Type} [DecidableEq α] {l1 : List (α × β)}
    (l2 : List (α × β)) {k : α} {v : β} (h : lookupA l1 k = some v) :
    lookupA (l1 ++ l2) k = some v := by
  induction l1 with
  | nil => simp [lookupA] at h
  | cons p rest ih =>
    rw [lookupA] at h
    rw [List.cons_append, lookupA]
    by_cases hk : k = p.1
    · rwa [if_pos hk] at h ⊢
    · rw [if_neg hk] at h ⊢
      exact ih h

theorem lookupA_any_true {α β : Type} [DecidableEq α] {l : List (α × β)} {k : α}
    (h : l.any (fun p => decide (p.1 = k)) = true) : ∃ v, lookupA l k = some v := by
  induction l with
  | nil => simp at h
  | cons p rest ih =>
    simp only [List.any_cons, Bool.or_eq_true, decide_eq_true_eq] at h
    rw [lookupA]
    by_cases hk : k = p.1
    · exact ⟨p.2, if_pos hk⟩
    · rw [if_neg hk]
      exact ih (h.resolve_left (fun he => hk he.symm))

theorem lookupA_map_store_self {α β : Type} [DecidableEq α] {l : List (α × β)}
    {k : α} {w : β} (v : β) (h : lookupA l k = some w) :
    lookupA (l.map (fun p => if p.1 = k then (k, v) else p)) k = some v := by
  induction l with
  | nil => simp [lookupA] at h
  | cons p rest ih =>
    rw [lookupA] at h
    rw [List.map_cons]
    by_cases hk : k = p.1
    · rw [if_pos (hk ▸ rfl : p.1 = k), lookupA, if_pos rfl]
    · rw [if_neg (fun he => hk he.symm), lookupA, if_neg hk]
      rw [if_neg hk] at h
      exact ih h

theorem lookupA_map_store_other {α β : Type} [DecidableEq α] {l : List (α × β)}
    {k k' : α} (v : β) (h : k' ≠ k) :
    lookupA (l.map (fun p => if p.1 = k then (k, v) else p)) k' = lookupA l k' := by
  induction l with
  | nil => rfl
  | cons p rest ih =>
    rw [List.map_cons, lookupA]
    by_cases hk : p.1 = k
    · rw [if_pos hk, lookupA, if_neg (fun he => h (by simp at he ⊢; exact he)),
        if_neg (fun he => h (he.trans hk))]
      exact ih
    · rw [if_neg hk, lookupA]
      by_cases hkp : k' = p.1
      · rw [if_pos hkp, if_pos hkp]
      · rw [if_neg hkp, if_neg hkp]
        exact ih

theorem storeA_lookup_self {α β : Type} [DecidableEq α] (l : List (α × β)) (k : α)
    (v : β) : lookupA (storeA l k v) k = some v := by
  unfold storeA
  by_cases hany : l.any (fun p => decide (p.1 = k)) = true
  · rw [if_pos hany]
    obtain ⟨w, hw⟩ := lookupA_any_true hany
    exact lookupA_map_store_self v hw
  · rw [if_neg hany]
    rw [lookupA_append_of_none _ (lookupA_any_false (Bool.eq_false_iff.mpr hany))]
    simp [lookupA]

theorem storeA_lookup_other {α β : Type} [DecidableEq α] (l : List (α × β))
    {k k' : α} (v : β) (h : k' ≠ k) :
    lookupA (storeA l k v) k' = lookupA l k' := by
  unfold storeA
  by_cases hany : l.any (fun p => decide (p.1 = k)) = true
  · rw [if_pos hany]
    exact lookupA_map_store_other v h
  · rw [if_neg hany]
    cases hl : lookupA l k' with
    | some w => exact lookupA_append_of_some _ hl
    | none =>
      rw [lookupA_append_of_none _ hl, lookupA, if_neg h]
      rfl

theorem lookupA_map_val {α β : Type} [DecidableEq α] (l : List (α × β)) (f : β → β)
    (k : α) : lookupA (l.map (fun p => (p.1, f p.2))) k = (lookupA l k).map f := by
  induction l with
  | nil => rfl
  | cons p rest ih =>
    rw [List.map_cons, lookupA, lookupA]
    by_cases hk : k = p.1
    · simp [hk]
    · simp only [hk, if_false, if_neg hk]
      exact ih

/-! Cancellation infrastructure. -/

theorem cancelOne_nil (r : TransitionListener) : cancelOne [] r = r := by
  simp [cancelOne]

theorem applyCancels_nil (l : List TransitionListener) : applyCancels [] l = l := by
  unfold applyCancels
  rw [List.map_congr_left (fun r _ => cancelOne_nil r), List.map_id']

theorem cancelInMachine_nil (m : Machine) : cancelInMachine m [] = m := by
  simp [cancelInMachine, applyCancels_nil]

theorem applyCancels_append (cs : List Nat) (a b : List TransitionListener) :
    applyCancels cs (a ++ b) = applyCancels cs a ++ applyCancels cs b := by
  simp [applyCancels]

theorem cancelOne_regId (cs : List Nat) (r : TransitionListener) :
    (cancelOne cs r).regId = r.regId := by
  unfold cancelOne
  split <;> rfl

theorem cancelOne_callBack (cs : List Nat) (r : TransitionListener) :
    (cancelOne cs r).callBack = r.callBack := by
  unfold cancelOne
  split <;> rfl

theorem cancelOne_active_mono {cs : List Nat} {r : TransitionListener}
    (h : (cancelOne cs r).active = true) : r.active = true := by
  unfold cancelOne at h
  split at h
  · exact absurd h (by simp)
  · exact h

theorem cancelOne_of_ge {cs : List Nat} {R : Nat} {r : TransitionListener}
    (hcs : ∀ c ∈ cs, c < R) (hr : R ≤ r.regId) : cancelOne cs r = r := by
  unfold cancelOne
  rw [if_neg]
  intro hmem
  exact absurd (hcs _ hmem) (by omega)

theorem applyCancels_of_ge {cs : List Nat} {R : Nat} {ws : List TransitionListener}
    (hcs : ∀ c ∈ cs, c < R) (hws : ∀ w ∈ ws, R ≤ w.regId) :
    applyCancels cs ws = ws := by
  unfold applyCancels
  rw [List.map_congr_left (fun w hw => cancelOne_of_ge hcs (hws w hw)), List.map_id']

theorem cancelOne_inactive_of_mem {cs : List Nat} {r : TransitionListener}
    (h : r.regId ∈ cs) : (cancelOne cs r).active = false := by
  simp [cancelOne, h]

theorem quietRec_cancelOne {pid R : Nat} {cs : List Nat} {r : TransitionListener}
    (h : QuietRec pid R r) : QuietRec pid R (cancelOne cs r) := by
  unfold QuietRec at h ⊢
  rw [cancelOne_callBack]
  exact h

theorem quietList_applyCancels {pid R : Nat} {cs : List Nat}
    {l : List TransitionListener} (h : QuietList pid R l) :
    QuietList pid R (applyCancels cs l) := by
  intro r hr hact
  obtain ⟨r0, hr0, rfl⟩ := List.mem_map.mp hr
  exact quietRec_cancelOne (h r0 hr0 (cancelOne_active_mono hact))

theorem cancelOne_cancelOne (cs1 cs2 : List Nat) (r : TransitionListener) :
    cancelOne cs2 (cancelOne cs1 r) = cancelOne (cs1 ++ cs2) r := by
  unfold cancelOne
  by_cases h1 : r.regId ∈ cs1
  · simp only [h1, if_pos, List.mem_append, true_or, if_true]
    split <;> rfl
  · simp only [h1, List.mem_append, false_or, if_false, iff_false, decide_eq_false_iff_not]

theorem applyCancels_applyCancels (cs1 cs2 : List Nat) (l : List TransitionListener) :
    applyCancels cs2 (applyCancels cs1 l) = applyCancels (cs1 ++ cs2) l := by
  unfold applyCancels
  rw [List.map_map]
  exact List.map_congr_left (fun r _ => cancelOne_cancelOne cs1 cs2 r)

/-! Promise-observation infrastructure. -/

def PromObs (m : Machine) (pid : Nat) : Nat × Option State × Bool :=
  (resolveCallsOf m pid, resolvedWithOf m pid, (promiseRec m pid).isSome)

theorem find_pid_map (ps : List PromiseRec) (q : Nat) (f : PromiseRec → PromiseRec)
    (hf : ∀ p, (f p).pid = p.pid) (pid : Nat) :
    (ps.map (fun p => if p.pid = q then f p else p)).find?
        (fun p => decide (p.pid = pid)) =
      (ps.find? (fun p => decide (p.pid = pid))).map
        (fun p => if p.pid = q then f p else p) := by
  induction ps with
  | nil => rfl
  | cons p rest ih =>
    rw [List.map_cons, List.find?_cons, List.find?_cons]
    have hpid : (if p.pid = q then f p else p).pid = p.pid := by
      split
      · exact hf p
      · rfl
    by_cases hp : p.pid = pid
    · have h1 : (decide ((if p.pid = q then f p else p).pid = pid)) = true := by
        rw [decide_eq_true_eq, hpid]
        exact hp
      have h2 : (decide (p.pid = pid)) = true := by
        rw [decide_eq_true_eq]
        exact hp
      rw [h1, h2]
      simp
    · have h1 : (decide ((if p.pid = q then f p else p).pid = pid)) = false := by
        rw [decide_eq_false_iff_not, hpid]
        exact hp
      have h2 : (decide (p.pid = pid)) = false := by
        rw [decide_eq_false_iff_not]
        exact hp
      rw [h1, h2]
      exact ih

theorem promiseRec_updPromise (m : Machine) (q : Nat) (f : PromiseRec → PromiseRec)
    (hf : ∀ p, (f p).pid = p.pid) (pid : Nat) :
    promiseRec (updPromise m q f) pid =
      (promiseRec m pid).map (fun p => if p.pid = q then f p else p) := by
  unfold promiseRec updPromise
  exact find_pid_map m.promises q f hf pid

theorem promiseRec_pid {m : Machine} {pid : Nat} {p : PromiseRec}
    (h : promiseRec m pid = some p) : p.pid = pid := by
  unfold promiseRec at h
  have := List.find?_some h
  simpa using this

theorem promObs_markFinished (m : Machine) (q pid : Nat) :
    PromObs (markFinished m q) pid = PromObs m pid := by
  unfold PromObs resolveCallsOf resolvedWithOf markFinished
  rw [promiseRec_updPromise m q (fun p => { p with finished := true })
    (fun p => rfl) pid]
  cases hp : promiseRec m pid with
  | none => rfl
  | some p =>
    simp only [Option.map_some']
    split <;> rfl

theorem promObs_doResolve_ne (m : Machine) (q pid : Nat) (s : State) (h : pid ≠ q) :
    PromObs (doResolve m q s) pid = PromObs m pid := by
  unfold PromObs resolveCallsOf resolvedWithOf doResolve
  rw [promiseRec_updPromise m q (fun p =>
    { p with
      resolveCalls := p.resolveCalls + 1,
      resolvedWith := match p.resolvedWith with | none => some s | some x => some x })
    (fun p => rfl) pid]
  cases hp : promiseRec m pid with
  | none => rfl
  | some p =>
    simp only [Option.map_some']
    rw [if_neg (by rw [promiseRec_pid hp]; exact h)]

theorem doResolve_self_obs (m : Machine) (pid : Nat) (s : State)
    (h : (promiseRec m pid).isSome = true) :
    resolveCallsOf (doResolve m pid s) pid = resolveCallsOf m pid + 1 ∧
    resolvedWithOf (doResolve m pid s) pid =
      (match resolvedWithOf m pid with | none => some s | some x => some x) ∧
    (promiseRec (doResolve m pid s) pid).isSome = true := by
  obtain ⟨p, hp⟩ := Option.isSome_iff_exists.mp h
  unfold resolveCallsOf resolvedWithOf doResolve
  rw [promiseRec_updPromise m pid (fun p =>
    { p with
      resolveCalls := p.resolveCalls + 1,
      resolvedWith := match p.resolvedWith with | none => some s | some x => some x })
    (fun p => rfl) pid, hp]
  simp only [Option.map_some', if_pos (promiseRec_pid hp)]
  refine ⟨rfl, ?_, rfl⟩
  cases hpr : p.resolvedWith <;> simp [hpr]

theorem promObs_calls {m m2 : Machine} {pid : Nat}
    (h : PromObs m2 pid = PromObs m pid) :
    resolveCallsOf m2 pid = resolveCallsOf m pid := congrArg Prod.fst h

theorem promObs_with {m m2 : Machine} {pid : Nat}
    (h : PromObs m2 pid = PromObs m pid) :
    resolvedWithOf m2 pid = resolvedWithOf m pid := congrArg (fun x => x.2.1) h

theorem promObs_isSome {m m2 : Machine} {pid : Nat}
    (h : PromObs m2 pid = PromObs m pid) :
    (promiseRec m2 pid).isSome = (promiseRec m pid).isSome :=
  congrArg (fun x => x.2.2) h

theorem promObs_of_promises_eq {m m' : Machine} (h : m'.promises = m.promises)
    (pid : Nat) : PromObs m' pid = PromObs m pid := by
  unfold PromObs resolveCallsOf resolvedWithOf promiseRec
  rw [h]

theorem promObs_foldMark (ls : List Nat) (m : Machine) (pid : Nat) :
    PromObs (ls.foldl (fun mm q => markFinished mm q) m) pid = PromObs m pid := by
  induction ls generalizing m with
  | nil => rfl
  | cons q rest ih => rw [List.foldl_cons, ih, promObs_markFinished]

theorem promObs_foldResolve (ls : List Nat) (m : Machine) (s : State) (pid : Nat)
    (h : pid ∉ ls) :
    PromObs (ls.foldl (fun mm q => doResolve mm q s) m) pid = PromObs m pid := by
  induction ls generalizing m with
  | nil => rfl
  | cons q rest ih =>
    rw [List.foldl_cons, ih (doResolve m q s) (fun hc => h (List.mem_cons_of_mem _ hc)),
      promObs_doResolve_ne]
    intro he
    exact h (he ▸ List.mem_cons_self _ _)

/-! Structure of `invokeEffects` and frame facts. -/

theorem foldMark_promises_only (ls : List Nat) (m : Machine) :
    ∃ ps, ls.foldl (fun mm q => markFinished mm q) m = { m with promises := ps } := by
  induction ls generalizing m with
  | nil => exact ⟨m.promises, rfl⟩
  | cons q rest ih =>
    obtain ⟨ps, hps⟩ := ih (markFinished m q)
    rw [List.foldl_cons, hps]
    exact ⟨ps, rfl⟩

theorem foldResolve_promises_only (ls : List Nat) (m : Machine) (s : State) :
    ∃ ps, ls.foldl (fun mm q => doResolve mm q s) m = { m with promises := ps } := by
  induction ls generalizing m with
  | nil => exact ⟨m.promises, rfl⟩
  | cons q rest ih =>
    obtain ⟨ps, hps⟩ := ih (doResolve m q s)
    rw [List.foldl_cons, hps]
    exact ⟨ps, rfl⟩

theorem invokeEffects_eq (m : Machine) (f t : State) (cb : Callback) :
    ∃ ps, invokeEffects m f t cb =
      { m with
        trace := m.trace ++
          (match cb.emits with | none => [] | some tag => [⟨tag, f, t, m.state⟩]),
        promises := ps,
        errorsLogged := m.errorsLogged + (if cb.throws then 1 else 0) } := by
  unfold invokeEffects
  dsimp only
  obtain ⟨ps1, h1⟩ := foldMark_promises_only cb.setsFinished (recordEmit m f t cb.emits)
  rw [h1]
  obtain ⟨ps2, h2⟩ :=
    foldResolve_promises_only cb.resolves { recordEmit m f t cb.emits with promises := ps1 } t
  rw [h2]
  refine ⟨ps2, ?_⟩
  cases he : cb.emits with
  | none =>
    cases ht : cb.throws <;> simp [recordEmit, he, ht]
  | some tag =>
    cases ht : cb.throws <;> simp [recordEmit, he, ht]

theorem promObs_invokeEffects (m : Machine) (f t : State) (cb : Callback) (pid : Nat)
    (h : pid ∉ cb.resolves) :
    PromObs (invokeEffects m f t cb) pid = PromObs m pid := by
  unfold invokeEffects
  dsimp only
  have he : PromObs (recordEmit m f t cb.emits) pid = PromObs m pid := by
    apply promObs_of_promises_eq
    cases cb.emits <;> rfl
  rw [show (if cb.throws then
      { cb.resolves.foldl (fun mm pid => doResolve mm pid t)
          (cb.setsFinished.foldl (fun mm pid => markFinished mm pid)
            (recordEmit m f t cb.emits)) with
        errorsLogged := (cb.resolves.foldl (fun mm pid => doResolve mm pid t)
          (cb.setsFinished.foldl (fun mm pid => markFinished mm pid)
            (recordEmit m f t cb.emits))).errorsLogged + 1 }
    else
      cb.resolves.foldl (fun mm pid => doResolve mm pid t)
        (cb.setsFinished.foldl (fun mm pid => markFinished mm pid)
          (recordEmit m f t cb.emits))) =
    if cb.throws then
      { cb.resolves.foldl (fun mm pid => doResolve mm pid t)
          (cb.setsFinished.foldl (fun mm pid => markFinished mm pid)
            (recordEmit m f t cb.emits)) with
        errorsLogged := (cb.resolves.foldl (fun mm pid => doResolve mm pid t)
          (cb.setsFinished.foldl (fun mm pid => markFinished mm pid)
            (recordEmit m f t cb.emits))).errorsLogged + 1 }
    else
      cb.resolves.foldl (fun mm pid => doResolve mm pid t)
        (cb.setsFinished.foldl (fun mm pid => markFinished mm pid)
          (recordEmit m f t cb.emits)) from rfl]
  have hcore : PromObs (cb.resolves.foldl (fun mm pid => doResolve mm pid t)
      (cb.setsFinished.foldl (fun mm pid => markFinished mm pid)
        (recordEmit m f t cb.emits))) pid = PromObs m pid := by
    rw [promObs_foldResolve _ _ _ _ h, promObs_foldMark, he]
  cases cb.throws with
  | false => simpa using hcore
  | true =>
    rw [if_pos rfl]
    rw [← hcore]
    exact promObs_of_promises_eq rfl pid

theorem invokeEffects_fire_obs (m : Machine) (f t : State) (cb : Callback) (pid : Nat)
    (hres : cb.resolves = [pid]) (hprom : (promiseRec m pid).isSome = true) :
    resolveCallsOf (invokeEffects m f t cb) pid = resolveCallsOf m pid + 1 ∧
    (resolvedWithOf m pid = none → resolvedWithOf (invokeEffects m f t cb) pid = some t) ∧
    (promiseRec (invokeEffects m f t cb) pid).isSome = true := by
  unfold invokeEffects
  dsimp only
  rw [hres]
  have he : PromObs (recordEmit m f t cb.emits) pid = PromObs m pid := by
    apply promObs_of_promises_eq
    cases cb.emits <;> rfl
  have hm : PromObs (cb.setsFinished.foldl (fun mm pid => markFinished mm pid)
      (recordEmit m f t cb.emits)) pid = PromObs m pid := by
    rw [promObs_foldMark, he]
  set m2 := cb.setsFinished.foldl (fun mm pid => markFinished mm pid)
    (recordEmit m f t cb.emits) with hm2
  have hcalls : resolveCallsOf m2 pid = resolveCallsOf m pid := congrArg Prod.fst hm
  have hwith : resolvedWithOf m2 pid = resolvedWithOf m pid :=
    congrArg (fun x => x.2.1) hm
  have hsome : (promiseRec m2 pid).isSome = true := by
    have := congrArg (fun x => x.2.2) hm
    simp only [PromObs] at this
    rw [this]
    exact hprom
  obtain ⟨hc, hw, hs⟩ := doResolve_self_obs m2 pid t hsome
  have hfin : PromObs (if cb.throws = true then
      { doResolve m2 pid t with errorsLogged := (doResolve m2 pid t).errorsLogged + 1 }
    else doResolve m2 pid t) pid = PromObs (doResolve m2 pid t) pid := by
    cases cb.throws with
    | false => rfl
    | true =>
      rw [if_pos rfl]
      exact promObs_of_promises_eq rfl pid
  have hfc : resolveCallsOf (if cb.throws = true then
      { doResolve m2 pid t with errorsLogged := (doResolve m2 pid t).errorsLogged + 1 }
    else doResolve m2 pid t) pid = resolveCallsOf (doResolve m2 pid t) pid :=
    congrArg Prod.fst hfin
  have hfw : resolvedWithOf (if cb.throws = true then
      { doResolve m2 pid t with errorsLogged := (doResolve m2 pid t).errorsLogged + 1 }
    else doResolve m2 pid t) pid = resolvedWithOf (doResolve m2 pid t) pid :=
    congrArg (fun x => x.2.1) hfin
  have hfs : (promiseRec (if cb.throws = true then
      { doResolve m2 pid t with errorsLogged := (doResolve m2 pid t).errorsLogged + 1 }
    else doResolve m2 pid t) pid).isSome =
      (promiseRec (doResolve m2 pid t) pid).isSome :=
    congrArg (fun x => x.2.2) hfin
  refine ⟨?_, ?_, ?_⟩
  · rw [List.foldl_cons, List.foldl_nil, hfc, hc, hcalls]
  · intro hnone
    rw [List.foldl_cons, List.foldl_nil, hfw, hw, hwith, hnone]
  · rw [List.foldl_cons, List.foldl_nil, hfs]
    exact hs

/-! Dispatch-loop lemmas. -/

theorem applyCancels_length (cs : List Nat) (l : List TransitionListener) :
    (applyCancels cs l).length = l.length := by
  unfold applyCancels
  exact List.length_map l (cancelOne cs)

theorem dispatchList_cons_active (f t : State) (m : Machine)
    (done rest : List TransitionListener) (r : TransitionListener)
    (h : r.active = true) :
    dispatchList f t m done (r :: rest) =
      dispatchList f t
        (cancelInMachine (invokeEffects m f t r.callBack) r.callBack.cancels)
        (applyCancels r.callBack.cancels (done ++ [r]))
        (applyCancels r.callBack.cancels rest) := by
  unfold dispatchList
  rw [show (r :: rest).length = rest.length + 1 from rfl, dispatchGo, if_pos h,
    applyCancels_length]

theorem dispatchList_cons_inactive (f t : State) (m : Machine)
    (done rest : List TransitionListener) (r : TransitionListener)
    (h : ¬r.active = true) :
    dispatchList f t m done (r :: rest) = dispatchList f t m done rest := by
  unfold dispatchList
  rw [show (r :: rest).length = rest.length + 1 from rfl, dispatchGo, if_neg h]

theorem dispatchList_nil (f t : State) (m : Machine) (done : List TransitionListener) :
    dispatchList f t m done [] = (m, done) := by
  rfl

/-- Induction principle following the loop structure. -/
theorem dispatchList_ind (f t : State)
    (motive : Machine → List TransitionListener → List TransitionListener → Prop)
    (case1 : ∀ m done, motive m done [])
    (case2 : ∀ m done r rest, r.active = true →
      motive (cancelInMachine (invokeEffects m f t r.callBack) r.callBack.cancels)
        (applyCancels r.callBack.cancels (done ++ [r]))
        (applyCancels r.callBack.cancels rest) →
      motive m done (r :: rest))
    (case3 : ∀ m done r rest, ¬r.active = true → motive m done rest →
      motive m done (r :: rest)) :
    ∀ m done rest, motive m done rest := by
  suffices H : ∀ n, ∀ rest : List TransitionListener, rest.length = n →
      ∀ m done, motive m done rest by
    intro m done rest
    exact H rest.length rest rfl m done
  intro n
  induction n using Nat.strong_induction_on with
  | _ n ihn =>
    intro rest hlen m done
    cases rest with
    | nil => exact case1 m done
    | cons r rest2 =>
      by_cases ho : r.active = true
      · refine case2 m done r rest2 ho ?_
        refine ihn (applyCancels r.callBack.cancels rest2).length ?_ _ rfl _ _
        rw [applyCancels_length, ← hlen]
        simp
      · refine case3 m done r rest2 ho ?_
        refine ihn rest2.length ?_ _ rfl _ _
        rw [← hlen]
        simp

theorem cancelInMachine_listeners (m : Machine) (cs : List Nat) (k : String) :
    lookupA (cancelInMachine m cs).listeners k =
      (lookupA m.listeners k).map (applyCancels cs) := by
  unfold cancelInMachine
  exact lookupA_map_val m.listeners (applyCancels cs) k

theorem cancelInvoke_static (m : Machine) (f t : State) (cb : Callback) (cs : List Nat) :
    (cancelInMachine (invokeEffects m f t cb) cs).state = m.state ∧
    (cancelInMachine (invokeEffects m f t cb) cs).validTransitions = m.validTransitions ∧
    (cancelInMachine (invokeEffects m f t cb) cs).states = m.states ∧
    (cancelInMachine (invokeEffects m f t cb) cs).nextRegId = m.nextRegId ∧
    (cancelInMachine (invokeEffects m f t cb) cs).nextPid = m.nextPid := by
  obtain ⟨ps, hps⟩ := invokeEffects_eq m f t cb
  unfold cancelInMachine
  rw [hps]
  exact ⟨rfl, rfl, rfl, rfl, rfl⟩

/-- The static fields never touched by dispatch. -/
theorem dispatchList_static (f t : State) (m : Machine)
    (done rest : List TransitionListener) :
    (dispatchList f t m done rest).1.state = m.state ∧
    (dispatchList f t m done rest).1.validTransitions = m.validTransitions ∧
    (dispatchList f t m done rest).1.states = m.states ∧
    (dispatchList f t m done rest).1.nextRegId = m.nextRegId ∧
    (dispatchList f t m done rest).1.nextPid = m.nextPid := by
  induction m, done, rest using dispatchList_ind f t with
  | case1 m done => rw [dispatchList_nil]; exact ⟨rfl, rfl, rfl, rfl, rfl⟩
  | case2 m done r rest hact ih =>
    rw [dispatchList_cons_active f t m done rest r hact]
    obtain ⟨h1, h2, h3, h4, h5⟩ := cancelInvoke_static m f t r.callBack r.callBack.cancels
    exact ⟨ih.1.trans h1, ih.2.1.trans h2, ih.2.2.1.trans h3,
      ih.2.2.2.1.trans h4, ih.2.2.2.2.trans h5⟩
  | case3 m done r rest hact ih =>
    rw [dispatchList_cons_inactive f t m done rest r hact]
    exact ih

theorem dispatchList_all_inactive (f t : State) (m : Machine)
    (done : List TransitionListener) :
    ∀ rest : List TransitionListener, (∀ r ∈ rest, r.active = false) →
      dispatchList f t m done rest = (m, done) := by
  intro rest
  induction rest with
  | nil => intro _; exact dispatchList_nil f t m done
  | cons r rest ih =>
    intro h
    rw [dispatchList_cons_inactive f t m done rest r
      (by rw [h r (List.mem_cons_self _ _)]; simp)]
    exact ih (fun r2 hr2 => h r2 (List.mem_cons_of_mem _ hr2))

/-- Dispatch preserves the observations of a promise no active record in
the pass resolves. -/
theorem dispatchList_promObs (f t : State) (pid R : Nat) (m : Machine)
    (done rest : List TransitionListener)
    (hrest : ∀ r ∈ rest, r.active = true → QuietRec pid R r) :
    PromObs (dispatchList f t m done rest).1 pid = PromObs m pid := by
  induction m, done, rest using dispatchList_ind f t with
  | case1 m done => rw [dispatchList_nil]
  | case2 m done r rest hact ih =>
    rw [dispatchList_cons_active f t m done rest r hact]
    have hq := hrest r (List.mem_cons_self _ _) hact
    have harg : ∀ r2 ∈ applyCancels r.callBack.cancels rest, r2.active = true →
        QuietRec pid R r2 := by
      intro r2 hr2 hact2
      obtain ⟨r0, hr0, rfl⟩ := List.mem_map.mp hr2
      exact quietRec_cancelOne
        (hrest r0 (List.mem_cons_of_mem _ hr0) (cancelOne_active_mono hact2))
    refine (ih harg).trans ?_
    show PromObs (cancelInMachine (invokeEffects m f t r.callBack)
      r.callBack.cancels) pid = PromObs m pid
    rw [promObs_of_promises_eq (show (cancelInMachine (invokeEffects m f t r.callBack)
      r.callBack.cancels).promises = (invokeEffects m f t r.callBack).promises from rfl)]
    exact promObs_invokeEffects m f t r.callBack pid hq.1
  | case3 m done r rest hact ih =>
    rw [dispatchList_cons_inactive f t m done rest r hact]
    exact ih (fun r2 hr2 ha => hrest r2 (List.mem_cons_of_mem _ hr2) ha)

/-- The registry after a dispatch pass is the original registry with one
accumulated set of cancellations applied, and every cancelled id belongs
to some record that was active in the pass. -/
theorem dispatchList_listeners (f t : State) (m : Machine)
    (done rest : List TransitionListener) :
    ∃ CS, (∀ c ∈ CS, ∃ r ∈ rest, r.active = true ∧ c ∈ r.callBack.cancels) ∧
      (dispatchList f t m done rest).1.listeners =
        m.listeners.map (fun kl => (kl.1, applyCancels CS kl.2)) := by
  induction m, done, rest using dispatchList_ind f t with
  | case1 m done =>
    refine ⟨[], by simp, ?_⟩
    rw [dispatchList_nil]
    rw [List.map_congr_left (fun kl _ => by rw [applyCancels_nil])]
    simp
  | case2 m done r rest hact ih =>
    obtain ⟨CS, hCS, hl⟩ := ih
    rw [dispatchList_cons_active f t m done rest r hact]
    refine ⟨r.callBack.cancels ++ CS, ?_, ?_⟩
    · intro c hc
      rcases List.mem_append.mp hc with hc1 | hc2
      · exact ⟨r, List.mem_cons_self _ _, hact, hc1⟩
      · obtain ⟨r2, hr2, hact2, hc3⟩ := hCS c hc2
        obtain ⟨r0, hr0, rfl⟩ := List.mem_map.mp hr2
        refine ⟨r0, List.mem_cons_of_mem _ hr0, cancelOne_active_mono hact2, ?_⟩
        rwa [cancelOne_callBack] at hc3
    · rw [hl]
      show (cancelInMachine (invokeEffects m f t r.callBack) r.callBack.cancels).listeners.map _ = _
      unfold cancelInMachine
      obtain ⟨ps, hps⟩ := invokeEffects_eq m f t r.callBack
      rw [hps]
      show (m.listeners.map fun kl => (kl.1, applyCancels r.callBack.cancels kl.2)).map _ = _
      rw [List.map_map]
      refine List.map_congr_left (fun kl _ => ?_)
      show (kl.1, applyCancels CS (applyCancels r.callBack.cancels kl.2)) = _
      rw [applyCancels_applyCancels]
  | case3 m done r rest hact ih =>
    obtain ⟨CS, hCS, hl⟩ := ih
    rw [dispatchList_cons_inactive f t m done rest r hact]
    refine ⟨CS, ?_, hl⟩
    intro c hc
    obtain ⟨r2, hr2, h1, h2⟩ := hCS c hc
    exact ⟨r2, List.mem_cons_of_mem _ hr2, h1, h2⟩

/-- Provenance of the written-back list: every record in it descends from
a record of `done` or `rest` with the same id and callback, active only
if its ancestor was. -/
theorem dispatchList_done_prov (f t : State) (m : Machine)
    (done rest : List TransitionListener) :
    ∀ r2 ∈ (dispatchList f t m done rest).2, ∃ r1, (r1 ∈ done ∨ r1 ∈ rest) ∧
      r2.regId = r1.regId ∧ r2.callBack = r1.callBack ∧
      (r2.active = true → r1.active = true) := by
  induction m, done, rest using dispatchList_ind f t with
  | case1 m done =>
    rw [dispatchList_nil]
    intro r2 hr2
    exact ⟨r2, Or.inl hr2, rfl, rfl, fun h => h⟩
  | case2 m done r rest hact ih =>
    rw [dispatchList_cons_active f t m done rest r hact]
    intro r2 hr2
    obtain ⟨r1, hmem, hid, hcb, hmono⟩ := ih r2 hr2
    rcases hmem with hdone | hrest2
    · obtain ⟨r0, hr0, rfl⟩ := List.mem_map.mp hdone
      rcases List.mem_append.mp hr0 with h0 | h0
      · exact ⟨r0, Or.inl h0, hid.trans (cancelOne_regId _ _),
          hcb.trans (cancelOne_callBack _ _),
          fun h => cancelOne_active_mono (hmono h)⟩
      · obtain rfl := List.mem_singleton.mp h0
        exact ⟨r0, Or.inr (List.mem_cons_self _ _),
          hid.trans (cancelOne_regId _ _), hcb.trans (cancelOne_callBack _ _),
          fun _ => hact⟩
    · obtain ⟨r0, hr0, rfl⟩ := List.mem_map.mp hrest2
      exact ⟨r0, Or.inr (List.mem_cons_of_mem _ hr0),
        hid.trans (cancelOne_regId _ _), hcb.trans (cancelOne_callBack _ _),
        fun h => cancelOne_active_mono (hmono h)⟩
  | case3 m done r rest hact ih =>
    rw [dispatchList_cons_inactive f t m done rest r hact]
    intro r2 hr2
    obtain ⟨r1, hmem, rest2⟩ := ih r2 hr2
    exact ⟨r1, hmem.imp id (List.mem_cons_of_mem _), rest2⟩

/-- The trace grows by entries stamped with the machine state at call
time, which dispatch never changes. -/
theorem dispatchList_trace (f t : State) (m : Machine)
    (done rest : List TransitionListener) :
    ∃ ext, (dispatchList f t m done rest).1.trace = m.trace ++ ext ∧
      ∀ e ∈ ext, e.fromS = f ∧ e.toS = t ∧ e.stateAtCall = m.state := by
  induction m, done, rest using dispatchList_ind f t with
  | case1 m done =>
    rw [dispatchList_nil]
    exact ⟨[], by simp, by simp⟩
  | case2 m done r rest hact ih =>
    rw [dispatchList_cons_active f t m done rest r hact]
    obtain ⟨ext, hext, hall⟩ := ih
    obtain ⟨ps, hps⟩ := invokeEffects_eq m f t r.callBack
    have hm1t : (cancelInMachine (invokeEffects m f t r.callBack)
        r.callBack.cancels).trace = m.trace ++
        (match r.callBack.emits with
          | none => [] | some tag => [⟨tag, f, t, m.state⟩]) := by
      show (invokeEffects m f t r.callBack).trace = _
      rw [hps]
    have hm1s : (cancelInMachine (invokeEffects m f t r.callBack)
        r.callBack.cancels).state = m.state := by
      show (invokeEffects m f t r.callBack).state = _
      rw [hps]
    refine ⟨(match r.callBack.emits with
      | none => [] | some tag => [⟨tag, f, t, m.state⟩]) ++ ext, ?_, ?_⟩
    · rw [hext, hm1t, List.append_assoc]
    · intro e he
      rcases List.mem_append.mp he with h1 | h2
      · cases hemits : r.callBack.emits with
        | none => rw [hemits] at h1; simp at h1
        | some tag =>
          rw [hemits] at h1
          rw [List.mem_singleton.mp h1]
          exact ⟨rfl, rfl, rfl⟩
      · obtain ⟨e1, e2, e3⟩ := hall e h2
        exact ⟨e1, e2, e3.trans hm1s⟩
  | case3 m done r rest hact ih =>
    rw [dispatchList_cons_inactive f t m done rest r hact]
    exact ih

/-- The firing pass: after a quiet prefix the pass reaches the block of
pending wait-records, invokes the first (which resolves the promise and
cancels every id in its callback, covering the whole block), and splices
the now-inactive siblings without invoking them.  The promise gains
exactly one resolution and every cancelled id is inactive afterwards. -/
theorem dispatchList_fire (f t : State) (pid R : Nat) (C : Callback)
    (hres : C.resolves = [pid]) :
    ∀ olds : List TransitionListener, ∀ ws : List TransitionListener,
    ∀ m : Machine, ∀ done : List TransitionListener,
    QuietList pid R olds →
    (∀ w ∈ ws, w.active = true ∧ w.callBack = C ∧ R ≤ w.regId ∧ w.regId ∈ C.cancels) →
    ws ≠ [] →
    (promiseRec m pid).isSome = true →
    resolveCallsOf (dispatchList f t m done (olds ++ ws)).1 pid =
      resolveCallsOf m pid + 1 ∧
    (resolvedWithOf m pid = none →
      resolvedWithOf (dispatchList f t m done (olds ++ ws)).1 pid = some t) ∧
    (promiseRec (dispatchList f t m done (olds ++ ws)).1 pid).isSome = true ∧
    (∀ r2 ∈ (dispatchList f t m done (olds ++ ws)).2,
      r2.regId ∈ C.cancels → r2.active = false) ∧
    (∀ k l2, lookupA (dispatchList f t m done (olds ++ ws)).1.listeners k = some l2 →
      ∀ r2 ∈ l2, r2.regId ∈ C.cancels → r2.active = false) := by
  suffices H : ∀ n : Nat, ∀ olds : List TransitionListener, olds.length = n →
      ∀ ws m done, QuietList pid R olds →
      (∀ w ∈ ws, w.active = true ∧ w.callBack = C ∧ R ≤ w.regId ∧ w.regId ∈ C.cancels) →
      ws ≠ [] → (promiseRec m pid).isSome = true →
      resolveCallsOf (dispatchList f t m done (olds ++ ws)).1 pid =
        resolveCallsOf m pid + 1 ∧
      (resolvedWithOf m pid = none →
        resolvedWithOf (dispatchList f t m done (olds ++ ws)).1 pid = some t) ∧
      (promiseRec (dispatchList f t m done (olds ++ ws)).1 pid).isSome = true ∧
      (∀ r2 ∈ (dispatchList f t m done (olds ++ ws)).2,
        r2.regId ∈ C.cancels → r2.active = false) ∧
      (∀ k l2, lookupA (dispatchList f t m done (olds ++ ws)).1.listeners k = some l2 →
        ∀ r2 ∈ l2, r2.regId ∈ C.cancels → r2.active = false) by
    intro olds
    exact H olds.length olds rfl
  intro n
  induction n using Nat.strong_induction_on with
  | _ n ihn =>
    intro olds hlen ws m done holds hws hne hprom
    cases olds with
    | nil =>
      rw [List.nil_append]
      cases ws with
      | nil => exact absurd rfl hne
      | cons w ws2 =>
        obtain ⟨hwact, hwcb, hwge, hwmem⟩ := hws w (List.mem_cons_self _ _)
        rw [dispatchList_cons_active f t m done ws2 w hwact, hwcb]
        have hinactive : ∀ r2 ∈ applyCancels C.cancels ws2, r2.active = false := by
          intro r2 hr2
          obtain ⟨r0, hr0, rfl⟩ := List.mem_map.mp hr2
          exact cancelOne_inactive_of_mem ((hws r0 (List.mem_cons_of_mem _ hr0)).2.2.2)
        rw [dispatchList_all_inactive f t _ _ _ hinactive]
        obtain ⟨hc, hw, hs⟩ := invokeEffects_fire_obs m f t C pid hres hprom
        have hpromeq : (cancelInMachine (invokeEffects m f t C) C.cancels).promises =
            (invokeEffects m f t C).promises := rfl
        have hobs := promObs_of_promises_eq hpromeq pid
        refine ⟨?_, ?_, ?_, ?_, ?_⟩
        · show resolveCallsOf (cancelInMachine (invokeEffects m f t C) C.cancels) pid = _
          rw [promObs_calls hobs]
          exact hc
        · intro hnone
          show resolvedWithOf (cancelInMachine (invokeEffects m f t C) C.cancels) pid = _
          rw [promObs_with hobs]
          exact hw hnone
        · show (promiseRec (cancelInMachine (invokeEffects m f t C) C.cancels) pid).isSome = _
          rw [promObs_isSome hobs]
          exact hs
        · intro r2 hr2 hmem
          obtain ⟨r0, hr0, rfl⟩ := List.mem_map.mp hr2
          exact cancelOne_inactive_of_mem (by rwa [cancelOne_regId] at hmem)
        · intro k l2 hl2 r2 hr2 hmem
          rw [cancelInMachine_listeners] at hl2
          obtain ⟨l0, hl0, rfl⟩ := Option.map_eq_some'.mp hl2
          obtain ⟨r0, hr0, rfl⟩ := List.mem_map.mp hr2
          exact cancelOne_inactive_of_mem (by rwa [cancelOne_regId] at hmem)
    | cons o olds2 =>
      rw [List.cons_append]
      by_cases ho : o.active = true
      · have hq := holds o (List.mem_cons_self _ _) ho
        rw [dispatchList_cons_active f t m done (olds2 ++ ws) o ho,
          show applyCancels o.callBack.cancels (olds2 ++ ws) =
            applyCancels o.callBack.cancels olds2 ++ ws from by
            rw [applyCancels_append,
              applyCancels_of_ge hq.2 (fun w hw => (hws w hw).2.2.1)]]
        have hobs : PromObs (cancelInMachine (invokeEffects m f t o.callBack)
            o.callBack.cancels) pid = PromObs m pid := by
          rw [promObs_of_promises_eq (show (cancelInMachine (invokeEffects m f t o.callBack)
            o.callBack.cancels).promises = (invokeEffects m f t o.callBack).promises from rfl)]
          exact promObs_invokeEffects m f t o.callBack pid hq.1
        have holds2 : QuietList pid R (applyCancels o.callBack.cancels olds2) :=
          quietList_applyCancels (fun r hr ha =>
            holds r (List.mem_cons_of_mem _ hr) ha)
        have hprom2 : (promiseRec (cancelInMachine (invokeEffects m f t o.callBack)
            o.callBack.cancels) pid).isSome = true := by
          rw [promObs_isSome hobs]
          exact hprom
        have hlt : (applyCancels o.callBack.cancels olds2).length < n := by
          rw [← hlen]
          simp [applyCancels]
        obtain ⟨c1, c2, c3, c4, c5⟩ := ihn _ hlt _ rfl ws _ _ holds2 hws hne hprom2
        refine ⟨?_, ?_, c3, c4, c5⟩
        · rw [c1, promObs_calls hobs]
        · intro hnone
          refine c2 ?_
          rw [promObs_with hobs]
          exact hnone
      · rw [dispatchList_cons_inactive f t m done (olds2 ++ ws) o ho]
        have hlt : olds2.length < n := by
          rw [← hlen]
          simp
        exact ihn _ hlt _ rfl ws m done
          (fun r hr ha => holds r (List.mem_cons_of_mem _ hr) ha) hws hne hprom

theorem invokeEffects_tame (m : Machine) (f t : State) (cb : Callback)
    (h : TameCb cb) :
    invokeEffects m f t cb =
      { m with
        trace := m.trace ++
          (match cb.emits with | none => [] | some tag => [⟨tag, f, t, m.state⟩]),
        errorsLogged := m.errorsLogged + (if cb.throws then 1 else 0) } := by
  unfold invokeEffects
  dsimp only
  rw [h.2.1, h.2.2]
  simp only [List.foldl_nil]
  cases he : cb.emits <;> cases ht : cb.throws <;> simp [recordEmit, he, ht]

theorem emittedTrace_cons_active (f t st : State) (r : TransitionListener)
    (rest : List TransitionListener) (h : r.active = true) :
    emittedTrace f t st (r :: rest) =
      (match r.callBack.emits with
        | none => [] | some tag => [⟨tag, f, t, st⟩]) ++ emittedTrace f t st rest := by
  cases he : r.callBack.emits <;> simp [emittedTrace, h, he]

theorem emittedTrace_cons_inactive (f t st : State) (r : TransitionListener)
    (rest : List TransitionListener) (h : ¬r.active = true) :
    emittedTrace f t st (r :: rest) = emittedTrace f t st rest := by
  simp [emittedTrace, h]

theorem throwCount_cons_active (r : TransitionListener)
    (rest : List TransitionListener) (h : r.active = true) :
    throwCount (r :: rest) =
      (if r.callBack.throws then 1 else 0) + throwCount rest := by
  cases ht : r.callBack.throws <;> simp [throwCount, h, ht, Nat.add_comm]

theorem throwCount_cons_inactive (r : TransitionListener)
    (rest : List TransitionListener) (h : ¬r.active = true) :
    throwCount (r :: rest) = throwCount rest := by
  simp [throwCount, h]

/-- A pass over tame listeners: the registry list compacts to its active
records, each active record's emission is appended in list order, each
active thrower is logged, and nothing else changes. -/
theorem dispatchList_tame (f t : State) :
    ∀ rest : List TransitionListener, ∀ m : Machine,
    ∀ done : List TransitionListener,
    (∀ r ∈ rest, TameCb r.callBack) →
    dispatchList f t m done rest =
      ({ m with
          trace := m.trace ++ emittedTrace f t m.state rest,
          errorsLogged := m.errorsLogged + throwCount rest },
       done ++ rest.filter (fun r => r.active)) := by
  intro rest
  induction rest with
  | nil =>
    intro m done _
    rw [dispatchList_nil]
    simp [emittedTrace, throwCount]
  | cons r rest ih =>
    intro m done htame
    have htr := htame r (List.mem_cons_self _ _)
    by_cases ho : r.active = true
    · rw [dispatchList_cons_active f t m done rest r ho, htr.1, applyCancels_nil,
        applyCancels_nil, cancelInMachine_nil,
        invokeEffects_tame m f t r.callBack htr,
        ih _ _ (fun r2 hr2 => htame r2 (List.mem_cons_of_mem _ hr2)),
        emittedTrace_cons_active f t m.state r rest ho,
        throwCount_cons_active r rest ho]
      refine Prod.ext ?_ ?_
      · show ({ m with
          trace := (m.trace ++ _) ++ emittedTrace f t m.state rest,
          errorsLogged := (m.errorsLogged + _) + throwCount rest } : Machine) = _
        simp [List.append_assoc, Nat.add_assoc]
      · show (done ++ [r]) ++ rest.filter (fun r => r.active) = _
        rw [List.filter_cons_of_pos (by simpa using ho), List.append_assoc]
        rfl
    · rw [dispatchList_cons_inactive f t m done rest r ho,
        ih _ _ (fun r2 hr2 => htame r2 (List.mem_cons_of_mem _ hr2)),
        emittedTrace_cons_inactive f t m.state r rest ho,
        throwCount_cons_inactive r rest ho,
        List.filter_cons_of_neg (by simpa using ho)]

/-! Phase-level (`invokeTransitionListeners`) lemmas. -/

theorem invokeTL_static (m : Machine) (f t : State) (key : String) :
    (invokeTransitionListeners m f t key).state = m.state ∧
    (invokeTransitionListeners m f t key).validTransitions = m.validTransitions ∧
    (invokeTransitionListeners m f t key).states = m.states ∧
    (invokeTransitionListeners m f t key).nextRegId = m.nextRegId ∧
    (invokeTransitionListeners m f t key).nextPid = m.nextPid := by
  unfold invokeTransitionListeners
  cases hl : lookupA m.listeners key with
  | none => exact ⟨rfl, rfl, rfl, rfl, rfl⟩
  | some l =>
    dsimp only
    obtain ⟨h1, h2, h3, h4, h5⟩ := dispatchList_static f t m [] l
    exact ⟨h1, h2, h3, h4, h5⟩

theorem invokeTL_promObs (m : Machine) (f t : State) (key : String) (pid R : Nat)
    (hq : QuietList pid R (getL m key)) :
    PromObs (invokeTransitionListeners m f t key) pid = PromObs m pid := by
  unfold invokeTransitionListeners
  cases hl : lookupA m.listeners key with
  | none => rfl
  | some l =>
    dsimp only
    have hq2 : ∀ r ∈ l, r.active = true → QuietRec pid R r := by
      intro r hr ha
      exact hq r (by rw [getL, hl]; exact hr) ha
    rw [promObs_of_promises_eq
      (show ({ (dispatchList f t m [] l).1 with
          listeners := storeA (dispatchList f t m [] l).1.listeners key
            (dispatchList f t m [] l).2 } : Machine).promises =
        (dispatchList f t m [] l).1.promises from rfl)]
    exact dispatchList_promObs f t pid R m [] l hq2

/-- Machine-wide provenance through one phase: every record visible
afterwards descends from a record visible before under the same key. -/
theorem invokeTL_prov (m : Machine) (f t : State) (key : String) :
    ∀ k, ∀ r2 ∈ getL (invokeTransitionListeners m f t key) k,
    ∃ r1 ∈ getL m k, r2.regId = r1.regId ∧ r2.callBack = r1.callBack ∧
      (r2.active = true → r1.active = true) := by
  unfold invokeTransitionListeners
  cases hl : lookupA m.listeners key with
  | none =>
    intro k r2 hr2
    exact ⟨r2, hr2, rfl, rfl, fun h => h⟩
  | some l =>
    dsimp only
    intro k r2 hr2
    by_cases hk : k = key
    · subst hk
      rw [getL, show ({ (dispatchList f t m [] l).1 with
          listeners := storeA (dispatchList f t m [] l).1.listeners k
            (dispatchList f t m [] l).2 } : Machine).listeners =
          storeA (dispatchList f t m [] l).1.listeners k
            (dispatchList f t m [] l).2 from rfl,
        storeA_lookup_self] at hr2
      obtain ⟨r1, hmem, h1, h2, h3⟩ := dispatchList_done_prov f t m [] l r2 hr2
      rcases hmem with h0 | h0
      · simp at h0
      · exact ⟨r1, by rw [getL, hl]; exact h0, h1, h2, h3⟩
    · rw [getL, show ({ (dispatchList f t m [] l).1 with
          listeners := storeA (dispatchList f t m [] l).1.listeners key
            (dispatchList f t m [] l).2 } : Machine).listeners =
          storeA (dispatchList f t m [] l).1.listeners key
            (dispatchList f t m [] l).2 from rfl,
        storeA_lookup_other _ _ hk] at hr2
      obtain ⟨CS, hCS, hlst⟩ := dispatchList_listeners f t m [] l
      rw [hlst, lookupA_map_val] at hr2
      cases hk2 : lookupA m.listeners k with
      | none => rw [hk2] at hr2; simp at hr2
      | some l0 =>
        rw [hk2] at hr2
        simp only [Option.map_some', Option.getD_some] at hr2
        obtain ⟨r0, hr0, rfl⟩ := List.mem_map.mp hr2
        refine ⟨r0, by rw [getL, hk2]; exact hr0, cancelOne_regId _ _,
          cancelOne_callBack _ _, fun h => cancelOne_active_mono h⟩

/-- After a quiet phase, every other key's list is the original with
cancellations of ids `< R` applied. -/
theorem invokeTL_quiet_shape (m : Machine) (f t : State) (key : String)
    (pid R : Nat) (hq : QuietList pid R (getL m key)) :
    ∃ CS, (∀ c ∈ CS, c < R) ∧
      ∀ k, k ≠ key → lookupA (invokeTransitionListeners m f t key).listeners k =
        (lookupA m.listeners k).map (applyCancels CS) := by
  unfold invokeTransitionListeners
  cases hl : lookupA m.listeners key with
  | none =>
    refine ⟨[], by simp, ?_⟩
    intro k _
    cases hk : lookupA m.listeners k with
    | none => simp
    | some l0 => rw [Option.map_some', applyCancels_nil]
  | some l =>
    dsimp only
    obtain ⟨CS, hCS, hlst⟩ := dispatchList_listeners f t m [] l
    refine ⟨CS, ?_, ?_⟩
    · intro c hc
      obtain ⟨r, hr, hact, hmem⟩ := hCS c hc
      exact (hq r (by rw [getL, hl]; exact hr) hact).2 c hmem
    · intro k hk
      show lookupA (storeA (dispatchList f t m [] l).1.listeners key
        (dispatchList f t m [] l).2) k = _
      rw [storeA_lookup_other _ _ hk, hlst, lookupA_map_val]

/-- The firing phase at the `invokeTransitionListeners` level. -/
theorem invokeTL_fire (m : Machine) (f t : State) (key : String) (pid R : Nat)
    (C : Callback) (hres : C.resolves = [pid])
    (olds ws : List TransitionListener)
    (hl : lookupA m.listeners key = some (olds ++ ws))
    (holds : QuietList pid R olds)
    (hws : ∀ w ∈ ws, w.active = true ∧ w.callBack = C ∧ R ≤ w.regId ∧ w.regId ∈ C.cancels)
    (hne : ws ≠ [])
    (hprom : (promiseRec m pid).isSome = true) :
    resolveCallsOf (invokeTransitionListeners m f t key) pid =
      resolveCallsOf m pid + 1 ∧
    (resolvedWithOf m pid = none →
      resolvedWithOf (invokeTransitionListeners m f t key) pid = some t) ∧
    (promiseRec (invokeTransitionListeners m f t key) pid).isSome = true ∧
    (∀ k, ∀ r2 ∈ getL (invokeTransitionListeners m f t key) k,
      r2.regId ∈ C.cancels → r2.active = false) := by
  unfold invokeTransitionListeners
  rw [hl]
  dsimp only
  obtain ⟨c1, c2, c3, c4, c5⟩ :=
    dispatchList_fire f t pid R C hres olds ws m [] holds hws hne hprom
  have hpr : ({ (dispatchList f t m [] (olds ++ ws)).1 with
      listeners := storeA (dispatchList f t m [] (olds ++ ws)).1.listeners key
        (dispatchList f t m [] (olds ++ ws)).2 } : Machine).promises =
      (dispatchList f t m [] (olds ++ ws)).1.promises := rfl
  have hobs := promObs_of_promises_eq hpr pid
  refine ⟨?_, ?_, ?_, ?_⟩
  · rw [promObs_calls hobs]
    exact c1
  · intro hnone
    rw [promObs_with hobs]
    exact c2 hnone
  · rw [promObs_isSome hobs]
    exact c3
  · intro k r2 hr2 hmem
    by_cases hk : k = key
    · subst hk
      rw [getL, show ({ (dispatchList f t m [] (olds ++ ws)).1 with
          listeners := storeA (dispatchList f t m [] (olds ++ ws)).1.listeners k
            (dispatchList f t m [] (olds ++ ws)).2 } : Machine).listeners =
          storeA (dispatchList f t m [] (olds ++ ws)).1.listeners k
            (dispatchList f t m [] (olds ++ ws)).2 from rfl,
        storeA_lookup_self] at hr2
      exact c4 r2 hr2 hmem
    · rw [getL, show ({ (dispatchList f t m [] (olds ++ ws)).1 with
          listeners := storeA (dispatchList f t m [] (olds ++ ws)).1.listeners key
            (dispatchList f t m [] (olds ++ ws)).2 } : Machine).listeners =
          storeA (dispatchList f t m [] (olds ++ ws)).1.listeners key
            (dispatchList f t m [] (olds ++ ws)).2 from rfl,
        storeA_lookup_other _ _ hk] at hr2
      cases hk2 : lookupA (dispatchList f t m [] (olds ++ ws)).1.listeners k with
      | none => rw [hk2] at hr2; simp at hr2
      | some l2 =>
        rw [hk2] at hr2
        exact c5 k l2 hk2 r2 (by simpa using hr2) hmem

/-- The tame phase: per-key compaction, ordered emission, error logging. -/
theorem invokeTL_tame (m : Machine) (f t : State) (key : String)
    (htame : ∀ r ∈ getL m key, TameCb r.callBack) :
    (invokeTransitionListeners m f t key).trace =
      m.trace ++ emittedTrace f t m.state (getL m key) ∧
    (invokeTransitionListeners m f t key).errorsLogged =
      m.errorsLogged + throwCount (getL m key) ∧
    (invokeTransitionListeners m f t key).promises = m.promises ∧
    (∀ k, k ≠ key → lookupA (invokeTransitionListeners m f t key).listeners k =
      lookupA m.listeners k) ∧
    getL (invokeTransitionListeners m f t key) key =
      (getL m key).filter (fun r => r.active) := by
  unfold invokeTransitionListeners
  cases hl : lookupA m.listeners key with
  | none =>
    have hgl : getL m key = [] := by unfold getL; rw [hl]; rfl
    rw [hgl]
    exact ⟨by simp [emittedTrace], by simp [throwCount], rfl, fun k _ => rfl,
      by simp⟩
  | some l =>
    have hgl : getL m key = l := by rw [getL, hl]; rfl
    rw [hgl] at htame ⊢
    dsimp only
    rw [dispatchList_tame f t l m [] htame]
    refine ⟨rfl, rfl, rfl, ?_, ?_⟩
    · intro k hk
      show lookupA (storeA _ key _) k = _
      rw [storeA_lookup_other _ _ hk]
    · show (lookupA (storeA _ key ([] ++ l.filter (fun r => r.active))) key).getD [] = _
      rw [storeA_lookup_self]
      rfl

/-! `setState`-level lemmas. -/

def VisQuiet (pid R : Nat) (m : Machine) : Prop :=
  ∀ k, QuietList pid R (getL m k)

theorem setState_of_canGo_error {m : Machine} {s : State} {e : JsError}
    (h : canGoToState m s = Except.error e) : setState m s = (m, some e) := by
  unfold setState
  rw [h]

theorem setState_of_canGo_false {m : Machine} {s : State}
    (h : canGoToState m s = Except.ok false) :
    setState m s = (m, some (JsError.invalidTransition m.state s)) := by
  unfold setState
  rw [h]

theorem setState_of_canGo_true {m : Machine} {s : State}
    (h : canGoToState m s = Except.ok true) :
    setState m s =
      (invokeAllTransitionListeners { m with state := s } m.state s, none) := by
  unfold setState
  rw [h]

theorem prov_trans {m1 m2 m3 : Machine}
    (h12 : ∀ k, ∀ r2 ∈ getL m2 k, ∃ r1 ∈ getL m1 k, r2.regId = r1.regId ∧
      r2.callBack = r1.callBack ∧ (r2.active = true → r1.active = true))
    (h23 : ∀ k, ∀ r3 ∈ getL m3 k, ∃ r2 ∈ getL m2 k, r3.regId = r2.regId ∧
      r3.callBack = r2.callBack ∧ (r3.active = true → r2.active = true)) :
    ∀ k, ∀ r3 ∈ getL m3 k, ∃ r1 ∈ getL m1 k, r3.regId = r1.regId ∧
      r3.callBack = r1.callBack ∧ (r3.active = true → r1.active = true) := by
  intro k r3 hr3
  obtain ⟨r2, hr2, a1, a2, a3⟩ := h23 k r3 hr3
  obtain ⟨r1, hr1, b1, b2, b3⟩ := h12 k r2 hr2
  exact ⟨r1, hr1, a1.trans b1, a2.trans b2, fun h => b3 (a3 h)⟩

theorem invokeAll_prov (m : Machine) (f t : State) :
    ∀ k, ∀ r2 ∈ getL (invokeAllTransitionListeners m f t) k,
    ∃ r1 ∈ getL m k, r2.regId = r1.regId ∧ r2.callBack = r1.callBack ∧
      (r2.active = true → r1.active = true) := by
  unfold invokeAllTransitionListeners
  dsimp only
  exact prov_trans (prov_trans (prov_trans
    (invokeTL_prov m f t (transitionLabel (some f) none))
    (invokeTL_prov _ f t (transitionLabel (some f) (some t))))
    (invokeTL_prov _ f t (transitionLabel none (some t))))
    (invokeTL_prov _ f t (transitionLabel none none))

theorem visQuiet_of_prov {pid R : Nat} {m m2 : Machine}
    (hp : ∀ k, ∀ r2 ∈ getL m2 k, ∃ r1 ∈ getL m k, r2.regId = r1.regId ∧
      r2.callBack = r1.callBack ∧ (r2.active = true → r1.active = true))
    (hq : VisQuiet pid R m) : VisQuiet pid R m2 := by
  intro k r2 hr2 ha
  obtain ⟨r1, hr1, hid, hcb, hmono⟩ := hp k r2 hr2
  have h := hq k r1 hr1 (hmono ha)
  unfold QuietRec at h ⊢
  rw [hcb]
  exact h

theorem invokeAll_promObs (m : Machine) (f t : State) (pid R : Nat)
    (hq : VisQuiet pid R m) :
    PromObs (invokeAllTransitionListeners m f t) pid = PromObs m pid := by
  unfold invokeAllTransitionListeners
  dsimp only
  have q1 := hq
  have q2 := visQuiet_of_prov (invokeTL_prov m f t (transitionLabel (some f) none)) q1
  have q3 := visQuiet_of_prov
    (invokeTL_prov _ f t (transitionLabel (some f) (some t))) q2
  have q4 := visQuiet_of_prov
    (invokeTL_prov _ f t (transitionLabel none (some t))) q3
  rw [invokeTL_promObs _ f t _ pid R (q4 _), invokeTL_promObs _ f t _ pid R (q3 _),
    invokeTL_promObs _ f t _ pid R (q2 _), invokeTL_promObs _ f t _ pid R (q1 _)]

theorem invokeAll_static (m : Machine) (f t : State) :
    (invokeAllTransitionListeners m f t).state = m.state ∧
    (invokeAllTransitionListeners m f t).validTransitions = m.validTransitions ∧
    (invokeAllTransitionListeners m f t).states = m.states ∧
    (invokeAllTransitionListeners m f t).nextRegId = m.nextRegId ∧
    (invokeAllTransitionListeners m f t).nextPid = m.nextPid := by
  unfold invokeAllTransitionListeners
  dsimp only
  obtain ⟨a1, a2, a3, a4, a5⟩ := invokeTL_static m f t (transitionLabel (some f) none)
  obtain ⟨b1, b2, b3, b4, b5⟩ := invokeTL_static _ f t (transitionLabel (some f) (some t))
  obtain ⟨c1, c2, c3, c4, c5⟩ := invokeTL_static _ f t (transitionLabel none (some t))
  obtain ⟨d1, d2, d3, d4, d5⟩ := invokeTL_static _ f t (transitionLabel none none)
  exact ⟨d1.trans (c1.trans (b1.trans a1)), d2.trans (c2.trans (b2.trans a2)),
    d3.trans (c3.trans (b3.trans a3)), d4.trans (c4.trans (b4.trans a4)),
    d5.trans (c5.trans (b5.trans a5))⟩

theorem setState_state_of_ok {m : Machine} {s : State}
    (h : canGoToState m s = Except.ok true) : (setState m s).1.state = s := by
  rw [setState_of_canGo_true h]
  exact (invokeAll_static _ _ _).1

theorem setState_quiet (m : Machine) (s : State) (pid R : Nat)
    (hq : VisQuiet pid R m) :
    PromObs (setState m s).1 pid = PromObs m pid ∧ VisQuiet pid R (setState m s).1 := by
  cases hc : canGoToState m s with
  | error e => rw [setState_of_canGo_error hc]; exact ⟨rfl, hq⟩
  | ok b =>
    cases b with
    | false => rw [setState_of_canGo_false hc]; exact ⟨rfl, hq⟩
    | true =>
      rw [setState_of_canGo_true hc]
      have hq1 : VisQuiet pid R { m with state := s } := hq
      constructor
      · exact invokeAll_promObs _ m.state s pid R hq1
      · exact visQuiet_of_prov (invokeAll_prov _ m.state s) hq1

theorem applySetStates_quiet (targets : List State) (m : Machine) (pid R : Nat)
    (hq : VisQuiet pid R m) :
    PromObs (applySetStates m targets) pid = PromObs m pid ∧
    VisQuiet pid R (applySetStates m targets) := by
  induction targets generalizing m with
  | nil => exact ⟨rfl, hq⟩
  | cons s rest ih =>
    obtain ⟨h1, h2⟩ := setState_quiet m s pid R hq
    obtain ⟨h3, h4⟩ := ih (setState m s).1 h2
    exact ⟨h3.trans h1, h4⟩

/-! Concrete fixtures for witnesses and counterexamples. -/

def labA : String := "A"

def labB : String := "B"

def labC : String := "C"

def sA : State := ⟨0, labA⟩

def sB : State := ⟨1, labB⟩

def sC : State := ⟨2, labC⟩

def tblAB : List (String × List State) := [(labA, [sB]), (labB, [sA])]

def mAB : Machine := mkMachine [sA, sB] tblAB sA

def mNoEntry : Machine := mkMachine [sA] [] sA

theorem canGo_none {m : Machine} {x : State}
    (h : lookupA m.validTransitions m.state.label = none) :
    canGoToState m x = Except.error JsError.typeError := by
  unfold canGoToState
  rw [h]

theorem canGo_some {m : Machine} {x : State} {ts : List State}
    (h : lookupA m.validTransitions m.state.label = some ts) :
    canGoToState m x = Except.ok (decide (x ∈ ts)) := by
  unfold canGoToState
  rw [h]

/-- Claim C1 (amended): a `setState` whose target is not a member (by
identity) of the table entry for the current state's label fails and
leaves the machine — in particular `_state` — exactly as it was.  When
the entry exists, the error is `InvalidTransition` describing the
attempted from→to pair; when the current label has *no* entry at all,
the failure is the `TypeError` thrown by indexing `undefined`, not an
`InvalidTransition` describing the pair. -/
theorem c1_invalid_setState_noop (m : Machine) (x : State) :
    (lookupA m.validTransitions m.state.label = none →
      setState m x = (m, some JsError.typeError)) ∧
    (∀ ts, lookupA m.validTransitions m.state.label = some ts → x ∉ ts →
      setState m x = (m, some (JsError.invalidTransition m.state x))) := by
  constructor
  · intro h
    exact setState_of_canGo_error (canGo_none h)
  · intro ts h hx
    refine setState_of_canGo_false ?_
    rw [canGo_some h, decide_eq_false hx]

theorem c1_invalid_setState_noop_witness :
    setState mNoEntry sB = (mNoEntry, some JsError.typeError) ∧
    setState mAB sC = (mAB, some (JsError.invalidTransition mAB.state sC)) :=
  ⟨(c1_invalid_setState_noop mNoEntry sB).1 (by decide),
   (c1_invalid_setState_noop mAB sC).2 [sB] (by decide) (by decide)⟩

/-- Claim C1 counterexample: with no table entry for the current state's
label, `setState` fails with the `TypeError` of `undefined.indexOf`, not
with an `InvalidTransition` error describing the from→to pair, so the
claim as stated is false at this input. -/
theorem c1_counterexample :
    (setState mNoEntry sB).2 = some JsError.typeError ∧
    (setState mNoEntry sB).2 ≠ some (JsError.invalidTransition mNoEntry.state sB) := by
  decide

/-- Claim C9 (amended): `canGoToState` is a pure query (by construction
it takes the machine and returns only an `Except`); its success value is
exactly the identity-membership test of the candidate in
`validTransitions[currentState.label]`, and succeeding `setState` is
equivalent to `canGoToState` returning `true` — the same check.  But it
is not failure-free: when the current state's label has no table entry,
`.indexOf` of `undefined` throws a `TypeError`. -/
theorem c9_canGoToState_query (m : Machine) (c : State) :
    ((setState m c).2 = none ↔ canGoToState m c = Except.ok true) ∧
    (∀ ts, lookupA m.validTransitions m.state.label = some ts →
      canGoToState m c = Except.ok (decide (c ∈ ts))) ∧
    (lookupA m.validTransitions m.state.label = none →
      canGoToState m c = Except.error JsError.typeError) := by
  refine ⟨?_, fun ts h => canGo_some h, fun h => canGo_none h⟩
  cases hc : canGoToState m c with
  | error e =>
    rw [setState_of_canGo_error hc]
    simp
  | ok b =>
    cases b with
    | false =>
      rw [setState_of_canGo_false hc]
      simp
    | true =>
      rw [setState_of_canGo_true hc]
      simp

theorem c9_canGoToState_query_witness :
    canGoToState mAB sB = Except.ok (decide (sB ∈ [sB])) ∧
    canGoToState mNoEntry sB = Except.error JsError.typeError :=
  ⟨(c9_canGoToState_query mAB sB).2.1 [sB] (by decide),
   (c9_canGoToState_query mNoEntry sB).2.2 (by decide)⟩

/-- Claim C9 counterexample: `canGoToState` does not always return a
boolean — at a machine whose current state's label has no table entry it
throws instead. -/
theorem c9_counterexample :
    ¬ ∃ b : Bool, canGoToState mNoEntry sB = Except.ok b := by
  rintro ⟨b, hb⟩
  rw [show canGoToState mNoEntry sB = Except.error JsError.typeError from rfl] at hb
  exact Except.noConfusion hb

/-! String lemmas about the transition keys. -/

theorem str_append_cancel_left {p a b : String} (h : p ++ a = p ++ b) : a = b := by
  apply String.ext
  have hd : p.data ++ a.data = p.data ++ b.data := by
    rw [← String.data_append, ← String.data_append, h]
  exact List.append_cancel_left hd

theorem data_ne_nil_of_ne_empty {a : String} (h : a ≠ "") : a.data ≠ [] := by
  intro hd
  exact h (String.ext hd)

theorem plain_append_ne_star_append {a : String} (ha : PlainLabel a) (X Y : String) :
    a ++ X ≠ starStr ++ Y := by
  intro h
  have hd := congrArg String.data h
  rw [String.data_append, String.data_append] at hd
  cases hc : a.data with
  | nil => exact data_ne_nil_of_ne_empty ha.1 hc
  | cons c cs =>
    rw [hc] at hd
    have hstar : starStr.data = ['*'] := rfl
    rw [hstar, List.cons_append, List.cons_append, List.nil_append] at hd
    have hcstar : c = '*' := (List.cons.injEq _ _ _ _ ▸ hd).1
    exact ha.2 (by rw [hc, hcstar]; exact List.mem_cons_self _ _)

theorem plain_ne_star {a : String} (ha : PlainLabel a) : a ≠ starStr := by
  intro h
  exact ha.2 (by rw [h]; exact List.mem_cons_self _ _)

theorem labelOrStar_plain {s : State} (h : PlainLabel s.label) :
    labelOrStar (some s) = s.label := by
  show (if s.label = "" then starStr else s.label) = s.label
  rw [if_neg h.1]

theorem keys_distinct (f t : State) (hf : PlainLabel f.label)
    (ht : PlainLabel t.label) :
    transitionLabel (some f) (some t) ≠ transitionLabel (some f) none ∧
    transitionLabel none (some t) ≠ transitionLabel (some f) none ∧
    transitionLabel none none ≠ transitionLabel (some f) none ∧
    transitionLabel none (some t) ≠ transitionLabel (some f) (some t) ∧
    transitionLabel none none ≠ transitionLabel (some f) (some t) ∧
    transitionLabel none none ≠ transitionLabel none (some t) := by
  unfold transitionLabel
  rw [labelOrStar_plain hf, labelOrStar_plain ht]
  have hstar : labelOrStar none = starStr := rfl
  rw [hstar]
  refine ⟨?_, ?_, ?_, ?_, ?_, ?_⟩
  · intro h
    rw [String.append_assoc, String.append_assoc] at h
    exact plain_ne_star ht (str_append_cancel_left (str_append_cancel_left h))
  · intro h
    rw [String.append_assoc, String.append_assoc] at h
    exact plain_append_ne_star_append hf _ _ h.symm
  · intro h
    rw [String.append_assoc, String.append_assoc] at h
    exact plain_append_ne_star_append hf _ _ h.symm
  · intro h
    rw [String.append_assoc, String.append_assoc] at h
    exact plain_append_ne_star_append hf _ _ h.symm
  · intro h
    rw [String.append_assoc, String.append_assoc] at h
    exact plain_append_ne_star_append hf _ _ h.symm
  · intro h
    rw [String.append_assoc, String.append_assoc] at h
    exact plain_ne_star ht (str_append_cancel_left (str_append_cancel_left h.symm))

theorem getL_eq_of_lookup_eq {m m2 : Machine} {k : String}
    (h : lookupA m2.listeners k = lookupA m.listeners k) : getL m2 k = getL m k := by
  unfold getL
  rw [h]

/-- A successful `setState` over a registry of tame listeners: no error
escapes, the state is the new state before any listener runs, the trace
gains the four phases' emissions in order (each stamped with the already
updated state), every active thrower is logged, and each probed key's
list compacts to its active records. -/
theorem setState_tame (m : Machine) (t : State)
    (hc : canGoToState m t = Except.ok true)
    (htame : ∀ k, ∀ r ∈ getL m k, TameCb r.callBack)
    (h21 : transitionLabel (some m.state) (some t) ≠ transitionLabel (some m.state) none)
    (h31 : transitionLabel none (some t) ≠ transitionLabel (some m.state) none)
    (h41 : transitionLabel none none ≠ transitionLabel (some m.state) none)
    (h32 : transitionLabel none (some t) ≠ transitionLabel (some m.state) (some t))
    (h42 : transitionLabel none none ≠ transitionLabel (some m.state) (some t))
    (h43 : transitionLabel none none ≠ transitionLabel none (some t)) :
    (setState m t).2 = none ∧
    (setState m t).1.state = t ∧
    (setState m t).1.trace = m.trace ++
      emittedTrace m.state t t (getL m (transitionLabel (some m.state) none)) ++
      emittedTrace m.state t t (getL m (transitionLabel (some m.state) (some t))) ++
      emittedTrace m.state t t (getL m (transitionLabel none (some t))) ++
      emittedTrace m.state t t (getL m (transitionLabel none none)) ∧
    (setState m t).1.errorsLogged = m.errorsLogged +
      throwCount (getL m (transitionLabel (some m.state) none)) +
      throwCount (getL m (transitionLabel (some m.state) (some t))) +
      throwCount (getL m (transitionLabel none (some t))) +
      throwCount (getL m (transitionLabel none none)) ∧
    getL (setState m t).1 (transitionLabel (some m.state) none) =
      (getL m (transitionLabel (some m.state) none)).filter (fun r => r.active) ∧
    getL (setState m t).1 (transitionLabel (some m.state) (some t)) =
      (getL m (transitionLabel (some m.state) (some t))).filter (fun r => r.active) ∧
    getL (setState m t).1 (transitionLabel none (some t)) =
      (getL m (transitionLabel none (some t))).filter (fun r => r.active) ∧
    getL (setState m t).1 (transitionLabel none none) =
      (getL m (transitionLabel none none)).filter (fun r => r.active) := by
  rw [setState_of_canGo_true hc]
  unfold invokeAllTransitionListeners
  dsimp only
  set f := m.state with hf
  set K1 := transitionLabel (some f) none with hK1
  set K2 := transitionLabel (some f) (some t) with hK2
  set K3 := transitionLabel none (some t) with hK3
  set K4 := transitionLabel none none with hK4
  set m1 : Machine := { m with state := t } with hm1
  have hgm1 : ∀ k, getL m1 k = getL m k := fun k => rfl
  set r1 := invokeTransitionListeners m1 f t K1 with hr1
  set r2 := invokeTransitionListeners r1 f t K2 with hr2
  set r3 := invokeTransitionListeners r2 f t K3 with hr3
  obtain ⟨e1t, e1e, e1p, e1o, e1k⟩ := invokeTL_tame m1 f t K1 (htame K1)
  have s1 := invokeTL_static m1 f t K1
  have g12 : getL r1 K2 = getL m K2 := getL_eq_of_lookup_eq (e1o K2 h21)
  have g13 : getL r1 K3 = getL m K3 := getL_eq_of_lookup_eq (e1o K3 h31)
  have g14 : getL r1 K4 = getL m K4 := getL_eq_of_lookup_eq (e1o K4 h41)
  obtain ⟨e2t, e2e, e2p, e2o, e2k⟩ := invokeTL_tame r1 f t K2
    (fun r hr => htame K2 r (g12 ▸ hr))
  have s2 := invokeTL_static r1 f t K2
  have g23 : getL r2 K3 = getL m K3 := (getL_eq_of_lookup_eq (e2o K3 h32)).trans g13
  have g24 : getL r2 K4 = getL m K4 := (getL_eq_of_lookup_eq (e2o K4 h42)).trans g14
  have g21 : getL r2 K1 = getL r1 K1 := getL_eq_of_lookup_eq (e2o K1 (Ne.symm h21))
  obtain ⟨e3t, e3e, e3p, e3o, e3k⟩ := invokeTL_tame r2 f t K3
    (fun r hr => htame K3 r (g23 ▸ hr))
  have s3 := invokeTL_static r2 f t K3
  have g34 : getL r3 K4 = getL m K4 := (getL_eq_of_lookup_eq (e3o K4 h43)).trans g24
  have g31 : getL r3 K1 = getL r1 K1 :=
    (getL_eq_of_lookup_eq (e3o K1 (Ne.symm h31))).trans g21
  have g32 : getL r3 K2 = getL r2 K2 := getL_eq_of_lookup_eq (e3o K2 (Ne.symm h32))
  obtain ⟨e4t, e4e, e4p, e4o, e4k⟩ := invokeTL_tame r3 f t K4
    (fun r hr => htame K4 r (g34 ▸ hr))
  have s4 := invokeTL_static r3 f t K4
  have hst1 : r1.state = t := s1.1
  have hst2 : r2.state = t := s2.1.trans hst1
  have hst3 : r3.state = t := s3.1.trans hst2
  refine ⟨rfl, s4.1.trans hst3, ?_, ?_, ?_, ?_, ?_, ?_⟩
  · rw [e4t, e3t, e2t, e1t, hst3, hst2, hst1, g34, g23, g12]
    show (((m.trace ++ emittedTrace f t m1.state (getL m K1)) ++ _) ++ _) ++ _ = _
    rfl
  · rw [e4e, e3e, e2e, e1e, g34, g23, g12]
    rfl
  · rw [show getL (invokeTransitionListeners r3 f t K4) K1 = getL r3 K1 from
      getL_eq_of_lookup_eq (e4o K1 (Ne.symm h41)), g31, e1k]
    rfl
  · rw [show getL (invokeTransitionListeners r3 f t K4) K2 = getL r3 K2 from
      getL_eq_of_lookup_eq (e4o K2 (Ne.symm h42)), g32, e2k, g12]
  · rw [show getL (invokeTransitionListeners r3 f t K4) K3 = getL r3 K3 from
      getL_eq_of_lookup_eq (e4o K3 (Ne.symm h43)), e3k, g23]
  · rw [e4k, g34]

/-! Decidability instances so concrete witnesses can be checked by
evaluation. -/

instance {e a : Type} [DecidableEq e] [DecidableEq a] : DecidableEq (Except e a) :=
  fun x y =>
    match x, y with
    | Except.ok v, Except.ok w =>
      if h : v = w then isTrue (by rw [h]) else isFalse (by
        intro hc
        exact h (Except.ok.inj hc))
    | Except.error v, Except.error w =>
      if h : v = w then isTrue (by rw [h]) else isFalse (by
        intro hc
        exact h (Except.error.inj hc))
    | Except.ok v, Except.error w => isFalse (by intro hc; exact Except.noConfusion hc)
    | Except.error v, Except.ok w => isFalse (by intro hc; exact Except.noConfusion hc)

instance (cb : Callback) : Decidable (TameCb cb) := by
  unfold TameCb
  infer_instance

instance (m : Machine) : Decidable (AllTame m) := by
  unfold AllTame
  infer_instance

instance (m : Machine) : Decidable (MachineFresh m) := by
  unfold MachineFresh
  infer_instance

instance (s : String) : Decidable (PlainLabel s) := by
  unfold PlainLabel
  infer_instance

theorem allTame_getL {m : Machine} (h : AllTame m) :
    ∀ k, ∀ r ∈ getL m k, TameCb r.callBack := by
  intro k r hr
  unfold getL at hr
  cases hl : lookupA m.listeners k with
  | none => rw [hl] at hr; simp at hr
  | some l =>
    rw [hl] at hr
    exact h (k, l) (lookupA_mem hl) r hr

theorem addTransitionListener_getL (m : Machine) (cb : Callback)
    (fs ts : Option State) :
    getL (addTransitionListener m cb fs ts).1 (transitionLabel fs ts) =
      getL m (transitionLabel fs ts) ++ [⟨m.nextRegId, fs, ts, true, cb⟩] := by
  unfold addTransitionListener getL
  dsimp only
  rw [storeA_lookup_self]
  rfl

/-- Claim C2: on a successful `setState` from `from` to `to` over tame
(user-style) listeners with ordinary labels, the dispatch runs
synchronously in exactly the four phases `{from} --> *`,
`{from} --> {to}`, `* --> {to}`, `* --> *`, in that order, the trace
extension being precisely the concatenation of the four stored lists'
emissions; and since registration appends to the stored list (second
conjunct), within each phase listeners fire in registration order. -/
theorem c2_dispatch_order (m : Machine) (t : State)
    (hc : canGoToState m t = Except.ok true) (htame : AllTame m)
    (hfp : PlainLabel m.state.label) (htp : PlainLabel t.label) :
    ((setState m t).2 = none ∧
     (setState m t).1.trace = m.trace ++
       emittedTrace m.state t t (getL m (transitionLabel (some m.state) none)) ++
       emittedTrace m.state t t (getL m (transitionLabel (some m.state) (some t))) ++
       emittedTrace m.state t t (getL m (transitionLabel none (some t))) ++
       emittedTrace m.state t t (getL m (transitionLabel none none))) ∧
    (∀ (m2 : Machine) (cb : Callback) (fs ts : Option State),
      getL (addTransitionListener m2 cb fs ts).1 (transitionLabel fs ts) =
        getL m2 (transitionLabel fs ts) ++ [⟨m2.nextRegId, fs, ts, true, cb⟩]) := by
  obtain ⟨h21, h31, h41, h32, h42, h43⟩ := keys_distinct m.state t hfp htp
  obtain ⟨o1, _, o3, _⟩ := setState_tame m t hc (allTame_getL htame)
    h21 h31 h41 h32 h42 h43
  exact ⟨⟨o1, o3⟩, addTransitionListener_getL⟩

def cbE (tag : Nat) : Callback := ⟨some tag, false, [], [], []⟩

def cbT (tag : Nat) : Callback := ⟨some tag, true, [], [], []⟩

def mL : Machine :=
  (onAnyTransition
    ((onEnterState
      ((onTransition
        ((onLeaveState mAB sA (cbE 1)).1) sA sB (cbE 2)).1) sB (cbE 3)).1)
    (cbE 4)).1

theorem c2_dispatch_order_witness :
    (setState mL sB).2 = none ∧
    (setState mL sB).1.trace.map (fun e => e.tag) = [1, 2, 3, 4] := by
  have h := c2_dispatch_order mL sB (by decide) (by decide) (by decide) (by decide)
  refine ⟨h.1.1, ?_⟩
  rw [h.1.2]
  decide

/-- Claim C8: a listener callback that throws during dispatch is caught
at the dispatch site and logged (the error counter grows by the number of
active throwers), the error never propagates to the `setState` caller
(the call still returns without error), the already-updated current state
stays the new state, and every remaining active listener of the same and
of later phases is still invoked (the trace extension covers all four
phases' active emissions, throwers included). -/
theorem c8_listener_throw_contained (m : Machine) (t : State)
    (hc : canGoToState m t = Except.ok true) (htame : AllTame m)
    (hfp : PlainLabel m.state.label) (htp : PlainLabel t.label) :
    (setState m t).2 = none ∧
    (setState m t).1.state = t ∧
    (setState m t).1.trace = m.trace ++
      emittedTrace m.state t t (getL m (transitionLabel (some m.state) none)) ++
      emittedTrace m.state t t (getL m (transitionLabel (some m.state) (some t))) ++
      emittedTrace m.state t t (getL m (transitionLabel none (some t))) ++
      emittedTrace m.state t t (getL m (transitionLabel none none)) ∧
    (setState m t).1.errorsLogged = m.errorsLogged +
      throwCount (getL m (transitionLabel (some m.state) none)) +
      throwCount (getL m (transitionLabel (some m.state) (some t))) +
      throwCount (getL m (transitionLabel none (some t))) +
      throwCount (getL m (transitionLabel none none)) := by
  obtain ⟨h21, h31, h41, h32, h42, h43⟩ := keys_distinct m.state t hfp htp
  obtain ⟨o1, o2, o3, o4, _⟩ := setState_tame m t hc (allTame_getL htame)
    h21 h31 h41 h32 h42 h43
  exact ⟨o1, o2, o3, o4⟩

def mT : Machine :=
  (onAnyTransition
    ((onAnyTransition
      ((onAnyTransition mAB (cbE 1)).1) (cbT 2)).1) (cbE 3)).1

theorem c8_listener_throw_contained_witness :
    (setState mT sB).2 = none ∧
    (setState mT sB).1.state = sB ∧
    (setState mT sB).1.trace.map (fun e => e.tag) = [1, 2, 3] ∧
    (setState mT sB).1.errorsLogged = 1 := by
  have h := c8_listener_throw_contained mT sB (by decide) (by decide)
    (by decide) (by decide)
  refine ⟨h.1, h.2.1, ?_, ?_⟩
  · rw [h.2.2.1]
    decide
  · rw [h.2.2.2]
    decide

theorem cancelOne_idem (cs : List Nat) (r : TransitionListener) :
    cancelOne cs (cancelOne cs r) = cancelOne cs r := by
  unfold cancelOne
  by_cases h : r.regId ∈ cs
  · simp [h]
  · simp [h]

/-- Claim C7: `cancel()` is idempotent (first conjunct); on a successful
transition over tame listeners with ordinary labels, a record found
inactive is removed from its phase list in place instead of being invoked
— afterwards each probed key stores exactly the active records, in order
(compaction), and the trace extension contains only active records'
emissions, so a listener cancelled before the transition is not invoked
on it, and being removed it cannot re-fire on any later transition. -/
theorem c7_cancelled_never_invoked (m : Machine) (t : State)
    (hc : canGoToState m t = Except.ok true) (htame : AllTame m)
    (hfp : PlainLabel m.state.label) (htp : PlainLabel t.label) :
    (∀ (m2 : Machine) (i : Nat),
      cancelRegistration (cancelRegistration m2 i) i = cancelRegistration m2 i) ∧
    ((setState m t).1.trace = m.trace ++
      emittedTrace m.state t t (getL m (transitionLabel (some m.state) none)) ++
      emittedTrace m.state t t (getL m (transitionLabel (some m.state) (some t))) ++
      emittedTrace m.state t t (getL m (transitionLabel none (some t))) ++
      emittedTrace m.state t t (getL m (transitionLabel none none))) ∧
    getL (setState m t).1 (transitionLabel (some m.state) none) =
      (getL m (transitionLabel (some m.state) none)).filter (fun r => r.active) ∧
    getL (setState m t).1 (transitionLabel (some m.state) (some t)) =
      (getL m (transitionLabel (some m.state) (some t))).filter (fun r => r.active) ∧
    getL (setState m t).1 (transitionLabel none (some t)) =
      (getL m (transitionLabel none (some t))).filter (fun r => r.active) ∧
    getL (setState m t).1 (transitionLabel none none) =
      (getL m (transitionLabel none none)).filter (fun r => r.active) := by
  obtain ⟨h21, h31, h41, h32, h42, h43⟩ := keys_distinct m.state t hfp htp
  obtain ⟨_, _, o3, _, o5, o6, o7, o8⟩ := setState_tame m t hc (allTame_getL htame)
    h21 h31 h41 h32 h42 h43
  refine ⟨?_, o3, o5, o6, o7, o8⟩
  intro m2 i
  unfold cancelRegistration cancelInMachine
  dsimp only
  congr 1
  rw [List.map_map]
  refine List.map_congr_left (fun kl _ => ?_)
  show (kl.1, applyCancels [i] (applyCancels [i] kl.2)) = (kl.1, applyCancels [i] kl.2)
  unfold applyCancels
  rw [List.map_map]
  exact congrArg _ (List.map_congr_left (fun r _ => cancelOne_idem [i] r))

def mC : Machine :=
  cancelRegistration
    ((onAnyTransition ((onAnyTransition mAB (cbE 5)).1) (cbE 6)).1) 0

theorem c7_cancelled_never_invoked_witness :
    (setState mC sB).1.trace.map (fun e => e.tag) = [6] ∧
    getL (setState mC sB).1 (transitionLabel none none) =
      (getL mC (transitionLabel none none)).filter (fun r => r.active) ∧
    (getL (setState mC sB).1 (transitionLabel none none)).length = 1 := by
  have h := c7_cancelled_never_invoked mC sB (by decide) (by decide)
    (by decide) (by decide)
  refine ⟨?_, h.2.2.2.2.2, ?_⟩
  · rw [h.2.1]
    decide
  · rw [h.2.2.2.2.2]
    decide

theorem lookupA_cons_self {α β : Type} [DecidableEq α] (k : α) (v : β)
    (rest : List (α × β)) : lookupA ((k, v) :: rest) k = some v := by
  unfold lookupA
  rw [if_pos rfl]

theorem lookupA_cons_ne {α β : Type} [DecidableEq α] {k k2 : α} (h : k2 ≠ k)
    (v : β) (rest : List (α × β)) : lookupA ((k, v) :: rest) k2 = lookupA rest k2 := by
  conv =>
    left
    rw [lookupA]
  rw [if_neg h]

theorem labelOrStar_empty {s : State} (h : s.label = "") :
    labelOrStar (some s) = starStr := by
  show (if s.label = "" then starStr else s.label) = starStr
  rw [if_pos h]

/-- Claim C10: a state with the empty (falsy) label is treated as the
wildcard by the key builder, so `onEnterState`/`onLeaveState` on it
register under the catch-all key `* --> *` exactly like
`onAnyTransition` (with the same record apart from the never-consulted
filter fields), every probe key built from it collapses to the wildcard
key, and a listener registered through `onEnterState` on it fires on an
arbitrary transition `f → t`. -/
theorem c10_empty_label_wildcard (s : State) (hs : s.label = "") :
    (∀ x, transitionLabel (some s) x = transitionLabel none x) ∧
    (∀ x, transitionLabel x (some s) = transitionLabel x none) ∧
    (∀ (m : Machine) (cb : Callback),
      (onEnterState m s cb).1.listeners =
        storeA m.listeners (transitionLabel none none)
          (getL m (transitionLabel none none) ++
            [⟨m.nextRegId, none, some s, true, cb⟩]) ∧
      (onLeaveState m s cb).1.listeners =
        storeA m.listeners (transitionLabel none none)
          (getL m (transitionLabel none none) ++
            [⟨m.nextRegId, some s, none, true, cb⟩]) ∧
      (onAnyTransition m cb).1.listeners =
        storeA m.listeners (transitionLabel none none)
          (getL m (transitionLabel none none) ++
            [⟨m.nextRegId, none, none, true, cb⟩])) ∧
    (∀ (states : List State) (tbl : List (String × List State)) (f t : State)
      (tag : Nat), PlainLabel f.label → PlainLabel t.label →
      canGoToState ((onEnterState (mkMachine states tbl f) s (cbE tag)).1) t =
        Except.ok true →
      (setState ((onEnterState (mkMachine states tbl f) s (cbE tag)).1) t).1.trace =
        [⟨tag, f, t, t⟩]) := by
  have hkey : ∀ x, transitionLabel (some s) x = transitionLabel none x := by
    intro x
    unfold transitionLabel
    rw [labelOrStar_empty hs]
    rfl
  have hkey2 : ∀ x, transitionLabel x (some s) = transitionLabel x none := by
    intro x
    unfold transitionLabel
    rw [labelOrStar_empty hs]
    rfl
  refine ⟨hkey, hkey2, ?_, ?_⟩
  · intro m cb
    refine ⟨?_, ?_, ?_⟩
    · show (addTransitionListener m cb none (some s)).1.listeners = _
      unfold addTransitionListener
      rw [hkey2 none]
    · show (addTransitionListener m cb (some s) none).1.listeners = _
      unfold addTransitionListener
      rw [hkey none]
    · rfl
  · intro states tbl f t tag hfp htp hc
    set m0 : Machine := mkMachine states tbl f with hm0
    set m1 : Machine := (onEnterState m0 s (cbE tag)).1 with hm1
    have hm1l : m1.listeners =
        [(transitionLabel none none, [⟨0, none, some s, true, cbE tag⟩])] := by
      show (addTransitionListener m0 (cbE tag) none (some s)).1.listeners = _
      unfold addTransitionListener
      rw [hkey2 none]
      rfl
    have hm1s : m1.state = f := rfl
    obtain ⟨h21, h31, h41, h32, h42, h43⟩ := keys_distinct f t hfp htp
    have hstate : m1.state = f := rfl
    have htame : AllTame m1 := by
      rw [AllTame, hm1l]
      intro kl hkl r hr
      rw [List.mem_singleton.mp hkl] at hr
      rw [List.mem_singleton.mp hr]
      exact ⟨rfl, rfl, rfl⟩
    have hgl : ∀ k, k ≠ transitionLabel none none → getL m1 k = [] := by
      intro k hk
      unfold getL
      rw [hm1l, lookupA_cons_ne hk]
      rfl
    have hgl4 : getL m1 (transitionLabel none none) =
        [⟨0, none, some s, true, cbE tag⟩] := by
      unfold getL
      rw [hm1l, lookupA_cons_self]
      rfl
    obtain ⟨o1, o2, o3, o4, _⟩ := setState_tame m1 t hc (allTame_getL htame)
      h21 h31 h41 h32 h42 h43
    rw [o3, hstate, hgl (transitionLabel (some f) none) (Ne.symm h41),
      hgl (transitionLabel (some f) (some t)) (Ne.symm h42),
      hgl (transitionLabel none (some t)) (Ne.symm h43), hgl4]
    show [] ++ [] ++ [] ++ [] ++ emittedTrace f t t [⟨0, none, some s, true, cbE tag⟩] = _
    simp [emittedTrace, cbE]

def labE : String := ""

def sE : State := ⟨9, labE⟩

theorem c10_empty_label_wildcard_witness :
    transitionLabel (some sE) none = transitionLabel none none ∧
    transitionLabel none (some sE) = transitionLabel none none ∧
    (setState ((onEnterState mAB sE (cbE 7)).1) sB).1.trace = [⟨7, sA, sB, sB⟩] :=
  ⟨(c10_empty_label_wildcard sE rfl).1 none,
   (c10_empty_label_wildcard sE rfl).2.1 none,
   (c10_empty_label_wildcard sE rfl).2.2.2 [sA, sB] tblAB sA sB 7
     (by decide) (by decide) (by decide)⟩

/-! Trace marking and per-operation frame lemmas. -/

theorem canGo_ok_true {m : Machine} {s : State}
    (h : canGoToState m s = Except.ok true) :
    ∃ ts, lookupA m.validTransitions m.state.label = some ts ∧ s ∈ ts := by
  unfold canGoToState at h
  cases hl : lookupA m.validTransitions m.state.label with
  | none => rw [hl] at h; exact Except.noConfusion h
  | some ts =>
    rw [hl] at h
    exact ⟨ts, rfl, of_decide_eq_true (Except.ok.inj h)⟩

theorem invokeTL_trace (m : Machine) (f t : State) (key : String) :
    ∃ ext, (invokeTransitionListeners m f t key).trace = m.trace ++ ext ∧
      ∀ e ∈ ext, e.toS = t ∧ e.stateAtCall = m.state := by
  unfold invokeTransitionListeners
  cases hl : lookupA m.listeners key with
  | none => exact ⟨[], by simp, by simp⟩
  | some l =>
    dsimp only
    obtain ⟨ext, hext, hall⟩ := dispatchList_trace f t m [] l
    exact ⟨ext, hext, fun e he => ⟨(hall e he).2.1, (hall e he).2.2⟩⟩

theorem invokeAll_trace (m : Machine) (f t : State) :
    ∃ ext, (invokeAllTransitionListeners m f t).trace = m.trace ++ ext ∧
      ∀ e ∈ ext, e.toS = t ∧ e.stateAtCall = m.state := by
  unfold invokeAllTransitionListeners
  dsimp only
  set r1 := invokeTransitionListeners m f t (transitionLabel (some f) none) with hr1
  set r2 := invokeTransitionListeners r1 f t (transitionLabel (some f) (some t)) with hr2
  set r3 := invokeTransitionListeners r2 f t (transitionLabel none (some t)) with hr3
  obtain ⟨x1, h1, a1⟩ := invokeTL_trace m f t (transitionLabel (some f) none)
  obtain ⟨x2, h2, a2⟩ := invokeTL_trace r1 f t (transitionLabel (some f) (some t))
  obtain ⟨x3, h3, a3⟩ := invokeTL_trace r2 f t (transitionLabel none (some t))
  obtain ⟨x4, h4, a4⟩ := invokeTL_trace r3 f t (transitionLabel none none)
  have s1 := (invokeTL_static m f t (transitionLabel (some f) none)).1
  have s2 := (invokeTL_static r1 f t (transitionLabel (some f) (some t))).1
  have s3 := (invokeTL_static r2 f t (transitionLabel none (some t))).1
  refine ⟨x1 ++ x2 ++ x3 ++ x4, ?_, ?_⟩
  · rw [h4, h3, h2, h1]
    simp [List.append_assoc]
  · intro e he
    rcases List.mem_append.mp he with he1 | he4
    · rcases List.mem_append.mp he1 with he2 | he3
      · rcases List.mem_append.mp he2 with hea | heb
        · exact a1 e hea
        · obtain ⟨hb1, hb2⟩ := a2 e heb
          exact ⟨hb1, hb2.trans s1⟩
      · obtain ⟨hb1, hb2⟩ := a3 e he3
        exact ⟨hb1, hb2.trans (s2.trans s1)⟩
    · obtain ⟨hb1, hb2⟩ := a4 e he4
      exact ⟨hb1, hb2.trans (s3.trans (s2.trans s1))⟩

/-- Every trace entry added by a `setState` records the machine state at
call time as the *new* state: `_state` is assigned before dispatch. -/
theorem setState_trace_marks (m : Machine) (s : State) :
    ∀ e ∈ (setState m s).1.trace, e ∈ m.trace ∨ e.stateAtCall = e.toS := by
  cases hc : canGoToState m s with
  | error e0 =>
    rw [setState_of_canGo_error hc]
    exact fun e he => Or.inl he
  | ok b =>
    cases b with
    | false =>
      rw [setState_of_canGo_false hc]
      exact fun e he => Or.inl he
    | true =>
      rw [setState_of_canGo_true hc]
      obtain ⟨ext, hext, hall⟩ := invokeAll_trace { m with state := s } m.state s
      intro e he
      rw [hext] at he
      rcases List.mem_append.mp he with h1 | h2
      · exact Or.inl h1
      · obtain ⟨hb1, hb2⟩ := hall e h2
        exact Or.inr (by rw [hb1, hb2])

theorem setState_validTransitions (m : Machine) (s : State) :
    (setState m s).1.validTransitions = m.validTransitions := by
  cases hc : canGoToState m s with
  | error e0 => rw [setState_of_canGo_error hc]
  | ok b =>
    cases b with
    | false => rw [setState_of_canGo_false hc]
    | true =>
      rw [setState_of_canGo_true hc]
      exact (invokeAll_static _ _ _).2.1

theorem setStateSeq_cons_ok {m m1 : Machine} {s : State}
    (h : setState m s = (m1, none)) (rest : List State) :
    setStateSeq m (s :: rest) = setStateSeq m1 rest := by
  conv =>
    left
    rw [setStateSeq]
  rw [h]

/-- Claim C3: a table-conformant sequence of `setState` calls succeeds at
every step; after each step the `state` accessor returns that step's
target; and every listener invocation any step performs happens with
`_state` already equal to the new state (`_state` is assigned before
dispatch), as recorded by the state-at-call stamp of each trace entry. -/
theorem c3_conformant_path (m : Machine) (path : List State)
    (hconf : Conformant m.validTransitions m.state path) :
    (setStateSeq m path).2 = none ∧
    (∀ i, ∀ h : i < path.length,
      ((setStateSeq m (path.take (i + 1))).1).state = path.get ⟨i, h⟩) ∧
    (∀ e ∈ (setStateSeq m path).1.trace, e ∈ m.trace ∨ e.stateAtCall = e.toS) := by
  induction path generalizing m with
  | nil =>
    exact ⟨rfl, fun i h => absurd h (by simp), fun e he => Or.inl he⟩
  | cons s rest ih =>
    obtain ⟨⟨ts, hl, hmem⟩, hrest⟩ := hconf
    have hc : canGoToState m s = Except.ok true := by
      rw [canGo_some hl, decide_eq_true hmem]
    have hset : setState m s = ((setState m s).1, none) := by
      rw [setState_of_canGo_true hc]
    have hst : (setState m s).1.state = s := setState_state_of_ok hc
    have hvt := setState_validTransitions m s
    have hconf2 : Conformant ((setState m s).1).validTransitions
        ((setState m s).1).state rest := by
      rw [hvt, hst]
      exact hrest
    obtain ⟨a, b, c⟩ := ih (setState m s).1 hconf2
    refine ⟨?_, ?_, ?_⟩
    · rw [setStateSeq_cons_ok hset rest]
      exact a
    · intro i h
      cases i with
      | zero =>
        show ((setStateSeq m [s]).1).state = s
        rw [setStateSeq_cons_ok hset []]
        exact hst
      | succ j =>
        show ((setStateSeq m (s :: rest.take (j + 1))).1).state = _
        rw [setStateSeq_cons_ok hset (rest.take (j + 1))]
        exact b j (by simpa using h)
    · intro e he
      rw [setStateSeq_cons_ok hset rest] at he
      rcases c e he with h1 | h2
      · exact setState_trace_marks m s e h1
      · exact Or.inr h2

theorem c3_conformant_path_witness :
    (setStateSeq mAB [sB, sA]).2 = none ∧
    (setStateSeq mAB [sB, sA]).1.state = sA := by
  have hconf : Conformant mAB.validTransitions mAB.state [sB, sA] :=
    ⟨⟨[sB], rfl, by decide⟩, ⟨[sA], rfl, by decide⟩, trivial⟩
  have h := c3_conformant_path mAB [sB, sA] hconf
  refine ⟨h.1, ?_⟩
  have h2 := h.2.1 1 (by decide)
  simpa using h2

/-! Per-operation frame lemmas and the reachability invariant. -/

theorem waitUntilLeft_frame (m : Machine) (s : State) :
    (waitUntilLeft m s).1.state = m.state ∧
    (waitUntilLeft m s).1.validTransitions = m.validTransitions := by
  unfold waitUntilLeft newPromise
  dsimp only
  split
  · exact ⟨rfl, rfl⟩
  · exact ⟨rfl, rfl⟩

theorem waitRegLoop_frame (pid : Nat) (ids : List Nat) :
    ∀ (cs : List State) (m : Machine),
    (waitRegLoop pid ids m cs).state = m.state ∧
    (waitRegLoop pid ids m cs).validTransitions = m.validTransitions := by
  intro cs
  induction cs with
  | nil => exact fun m => ⟨rfl, rfl⟩
  | cons c rest ih =>
    intro m
    rw [waitRegLoop]
    split
    · exact ⟨rfl, rfl⟩
    · exact ih _

theorem waitUntilEnteredOneOf_frame (m : Machine) (ss : List State) :
    (waitUntilEnteredOneOf m ss).1.state = m.state ∧
    (waitUntilEnteredOneOf m ss).1.validTransitions = m.validTransitions := by
  unfold waitUntilEnteredOneOf newPromise
  dsimp only
  split
  · exact ⟨rfl, rfl⟩
  · exact waitRegLoop_frame _ _ ss _

theorem applyOp_frame (m : Machine) (op : Op) :
    (applyOp m op).validTransitions = m.validTransitions ∧
    ((applyOp m op).state = m.state ∨
      ∃ ts, lookupA m.validTransitions m.state.label = some ts ∧
        (applyOp m op).state ∈ ts) := by
  cases op with
  | setStateOp s =>
    show ((setState m s).1.validTransitions = m.validTransitions) ∧
      ((setState m s).1.state = m.state ∨
        ∃ ts, lookupA m.validTransitions m.state.label = some ts ∧
          (setState m s).1.state ∈ ts)
    cases hc : canGoToState m s with
    | error e =>
      rw [setState_of_canGo_error hc]
      exact ⟨rfl, Or.inl rfl⟩
    | ok b =>
      cases b with
      | false =>
        rw [setState_of_canGo_false hc]
        exact ⟨rfl, Or.inl rfl⟩
      | true =>
        obtain ⟨ts, hl, hmem⟩ := canGo_ok_true hc
        refine ⟨setState_validTransitions m s, Or.inr ⟨ts, hl, ?_⟩⟩
        rw [setState_state_of_ok hc]
        exact hmem
  | onEnterOp s cb => exact ⟨rfl, Or.inl rfl⟩
  | onLeaveOp s cb => exact ⟨rfl, Or.inl rfl⟩
  | onTransitionOp a b cb => exact ⟨rfl, Or.inl rfl⟩
  | onAnyOp cb => exact ⟨rfl, Or.inl rfl⟩
  | cancelOp regId => exact ⟨rfl, Or.inl rfl⟩
  | waitLeftOp s =>
    obtain ⟨h1, h2⟩ := waitUntilLeft_frame m s
    exact ⟨h2, Or.inl h1⟩
  | waitEnteredOp s =>
    obtain ⟨h1, h2⟩ := waitUntilEnteredOneOf_frame m [s]
    exact ⟨h2, Or.inl h1⟩
  | waitEnteredOneOfOp ss =>
    obtain ⟨h1, h2⟩ := waitUntilEnteredOneOf_frame m ss
    exact ⟨h2, Or.inl h1⟩

theorem runOps_reachable (tbl : List (String × List State)) (init : State) :
    ∀ (ops : List Op) (m : Machine), m.validTransitions = tbl →
    Reachable tbl init m.state →
    Reachable tbl init (runOps m ops).state ∧
    (runOps m ops).validTransitions = tbl := by
  intro ops
  induction ops with
  | nil => exact fun m h1 h2 => ⟨h2, h1⟩
  | cons op rest ih =>
    intro m h1 h2
    show Reachable tbl init (runOps (applyOp m op) rest).state ∧ _
    obtain ⟨f1, f2⟩ := applyOp_frame m op
    refine ih (applyOp m op) (f1.trans h1) ?_
    rcases f2 with hsame | ⟨ts, hl, hmem⟩
    · rw [hsame]
      exact h2
    · exact Reachable.step h2 (by rw [← h1]; exact hl) hmem

theorem reachable_in_states {tbl : List (String × List State)}
    {init : State} {states : List State} {x : State}
    (hinit : init ∈ states)
    (hclosed : ∀ l ts, lookupA tbl l = some ts → ∀ y ∈ ts, y ∈ states)
    (h : Reachable tbl init x) : x ∈ states := by
  induction h with
  | refl => exact hinit
  | step ha hl hb ih => exact hclosed _ _ hl _ hb

/-- Claim C4 (amended): the machine has exactly one current `_state`;
after any sequence of engine operations it is reachable from the initial
state via zero or more table transitions; and it is additionally a member
of the declared `states` array provided the configuration is well-formed
(initial state declared, every table target declared) — the `setState`
gate checks only the table, never membership in `states`. -/
theorem c4_state_invariant (states : List State)
    (tbl : List (String × List State)) (init : State) (ops : List Op) :
    (∃! s, (runOps (mkMachine states tbl init) ops).state = s) ∧
    Reachable tbl init (runOps (mkMachine states tbl init) ops).state ∧
    (init ∈ states →
      (∀ l ts, lookupA tbl l = some ts → ∀ x ∈ ts, x ∈ states) →
      (runOps (mkMachine states tbl init) ops).state ∈ states) := by
  have h := runOps_reachable tbl init ops (mkMachine states tbl init) rfl
    Reachable.refl
  exact ⟨⟨(runOps (mkMachine states tbl init) ops).state, rfl,
    fun y hy => hy.symm⟩, h.1,
    fun hinit hclosed => reachable_in_states hinit hclosed h.1⟩

theorem c4_state_invariant_witness :
    sA ∈ [sA, sB] ∧
    (∀ l ts, lookupA tblAB l = some ts → ∀ x ∈ ts, x ∈ [sA, sB]) ∧
    (runOps (mkMachine [sA, sB] tblAB sA) [Op.setStateOp sB]).state ∈ [sA, sB] := by
  refine ⟨by decide, ?_, ?_⟩
  · intro l ts hts x hx
    unfold tblAB lookupA at hts
    split at hts
    · rw [(Option.some.injEq _ _ ▸ hts : [sB] = ts).symm] at hx
      rw [List.mem_singleton.mp hx]
      decide
    · unfold lookupA at hts
      split at hts
      · rw [(Option.some.injEq _ _ ▸ hts : [sA] = ts).symm] at hx
        rw [List.mem_singleton.mp hx]
        decide
      · exact absurd hts (by unfold lookupA; simp)
  · exact (c4_state_invariant [sA, sB] tblAB sA [Op.setStateOp sB]).2.2 (by decide)
      (by
        intro l ts hts x hx
        unfold tblAB lookupA at hts
        split at hts
        · rw [(Option.some.injEq _ _ ▸ hts : [sB] = ts).symm] at hx
          rw [List.mem_singleton.mp hx]
          decide
        · unfold lookupA at hts
          split at hts
          · rw [(Option.some.injEq _ _ ▸ hts : [sA] = ts).symm] at hx
            rw [List.mem_singleton.mp hx]
            decide
          · exact absurd hts (by unfold lookupA; simp))

def mBad : Machine := mkMachine [sA] [(labA, [sB])] sA

/-- Claim C4 counterexample: the `setState` gate checks only the table,
so a configured target outside the declared `states` array is entered,
falsifying the membership conjunct of the claim. -/
theorem c4_counterexample :
    (setState mBad sB).2 = none ∧
    ¬ (runOps mBad [Op.setStateOp sB]).state ∈ mBad.states := by
  decide

/-! Prerequisites for the waiting-primitive claims. -/

theorem newPromise_rec (m : Machine)
    (hF : ∀ p ∈ m.promises, p.pid < m.nextPid) :
    promiseRec (newPromise m).1 m.nextPid =
      some ⟨m.nextPid, none, 0, false⟩ := by
  unfold newPromise promiseRec
  dsimp only
  rw [List.find?_append]
  have hnone : m.promises.find? (fun p => decide (p.pid = m.nextPid)) = none := by
    rw [List.find?_eq_none]
    intro p hp
    simp only [decide_eq_true_eq]
    exact Nat.ne_of_lt (hF p hp)
  rw [hnone]
  simp

theorem machineFresh_visQuiet {m : Machine} (hF : MachineFresh m) :
    VisQuiet m.nextPid m.nextRegId m := by
  intro k r hr ha
  unfold getL at hr
  cases hl : lookupA m.listeners k with
  | none => rw [hl] at hr; simp at hr
  | some l =>
    rw [hl] at hr
    obtain ⟨h1, h2, h3⟩ := hF.1 (k, l) (lookupA_mem hl) r hr
    exact ⟨fun hp => absurd (h3 _ hp) (by omega), h2⟩

theorem setState_none_inv {m m2 : Machine} {t : State}
    (h : setState m t = (m2, none)) :
    canGoToState m t = Except.ok true ∧
    m2 = invokeAllTransitionListeners { m with state := t } m.state t := by
  cases hc : canGoToState m t with
  | error e =>
    rw [setState_of_canGo_error hc] at h
    exact absurd (congrArg Prod.snd h) (by simp)
  | ok b =>
    cases b with
    | false =>
      rw [setState_of_canGo_false hc] at h
      exact absurd (congrArg Prod.snd h) (by simp)
    | true =>
      rw [setState_of_canGo_true hc] at h
      exact ⟨rfl, (congrArg Prod.fst h).symm⟩

theorem waitUntilLeft_eq_immediate {m : Machine} {s : State} (hne : m.state ≠ s) :
    waitUntilLeft m s = (doResolve (newPromise m).1 m.nextPid m.state, m.nextPid) := by
  unfold waitUntilLeft
  dsimp only
  rw [if_pos (show (newPromise m).1.state ≠ s from hne)]
  rfl

theorem waitUntilLeft_eq_registered {m : Machine} {s : State} (hst : m.state = s) :
    waitUntilLeft m s =
      ((onLeaveState (newPromise m).1 s
        ⟨none, false, [m.nextRegId], [], [m.nextPid]⟩).1, m.nextPid) := by
  unfold waitUntilLeft
  dsimp only
  rw [if_neg (show ¬(newPromise m).1.state ≠ s from fun hne => hne hst)]
  rfl

/-- Claim C5: `waitUntilLeft(s)`.  If the current state differs from `s`
by identity, the promise is resolved immediately (exactly one `resolve`
call, with the current state) and no listener is registered.  Otherwise
the promise is pending, and on the first subsequent transition out of
`s` (every transition while the machine sits in `s` departs from `s`)
it is resolved exactly once with the state transitioned into; the
underlying leave-listener cancels itself when it fires, so across any
further sequence of `setState` calls the promise keeps exactly one
resolution with that same state — no second resolution ever occurs. -/
theorem c5_waitUntilLeft (m : Machine) (s : State) (hF : MachineFresh m) :
    (waitUntilLeft m s).2 = m.nextPid ∧
    (m.state ≠ s →
      resolveCallsOf (waitUntilLeft m s).1 m.nextPid = 1 ∧
      resolvedWithOf (waitUntilLeft m s).1 m.nextPid = some m.state ∧
      (waitUntilLeft m s).1.listeners = m.listeners) ∧
    (m.state = s →
      resolveCallsOf (waitUntilLeft m s).1 m.nextPid = 0 ∧
      resolvedWithOf (waitUntilLeft m s).1 m.nextPid = none ∧
      (∀ t m2, setState (waitUntilLeft m s).1 t = (m2, none) →
        resolveCallsOf m2 m.nextPid = 1 ∧
        resolvedWithOf m2 m.nextPid = some t ∧
        ∀ path, resolveCallsOf (applySetStates m2 path) m.nextPid = 1 ∧
          resolvedWithOf (applySetStates m2 path) m.nextPid = some t)) := by
  set pid := m.nextPid with hpid
  set R := m.nextRegId with hR
  have hrec := newPromise_rec m hF.2
  have hrecCalls : resolveCallsOf (newPromise m).1 pid = 0 := by
    unfold resolveCallsOf
    rw [hrec]
    rfl
  have hrecWith : resolvedWithOf (newPromise m).1 pid = none := by
    unfold resolvedWithOf
    rw [hrec]
    rfl
  have hrecSome : (promiseRec (newPromise m).1 pid).isSome = true := by
    rw [hrec]
    rfl
  refine ⟨?_, ?_, ?_⟩
  · unfold waitUntilLeft
    dsimp only
    split <;> rfl
  · intro hne
    rw [waitUntilLeft_eq_immediate hne]
    obtain ⟨d1, d2, d3⟩ := doResolve_self_obs (newPromise m).1 pid m.state hrecSome
    refine ⟨?_, ?_, rfl⟩
    · rw [d1, hrecCalls]
    · rw [d2, hrecWith]
  · intro hst
    rw [waitUntilLeft_eq_registered hst]
    set cb : Callback := ⟨none, false, [R], [], [pid]⟩ with hcb
    set W : TransitionListener := ⟨R, some s, none, true, cb⟩ with hW
    set K := transitionLabel (some s) none with hK
    set m1 := (onLeaveState (newPromise m).1 s cb).1 with hm1
    have hm1l : m1.listeners = storeA m.listeners K (getL m K ++ [W]) := rfl
    have hm1p : m1.promises = (newPromise m).1.promises := rfl
    have hm1obs : PromObs m1 pid = PromObs (newPromise m).1 pid :=
      promObs_of_promises_eq hm1p pid
    have hm1Calls : resolveCallsOf m1 pid = 0 := (promObs_calls hm1obs).trans hrecCalls
    have hm1With : resolvedWithOf m1 pid = none := (promObs_with hm1obs).trans hrecWith
    have hm1Some : (promiseRec m1 pid).isSome = true :=
      (promObs_isSome hm1obs).trans hrecSome
    have VQ : VisQuiet pid R m := machineFresh_visQuiet hF
    have hgK : getL m1 K = getL m K ++ [W] := by
      unfold getL
      rw [hm1l, storeA_lookup_self]
      rfl
    have hgO : ∀ k, k ≠ K → getL m1 k = getL m k := by
      intro k hk
      unfold getL
      rw [hm1l, storeA_lookup_other _ _ hk]
    refine ⟨hm1Calls, hm1With, ?_⟩
    intro t m2 hset
    obtain ⟨hc, hm2⟩ := setState_none_inv hset
    have hm1st : m1.state = s := hst
    rw [hm1st] at hm2
    unfold invokeAllTransitionListeners at hm2
    dsimp only at hm2
    rw [← hK] at hm2
    set p0 : Machine := { m1 with state := t } with hp0
    set p1 := invokeTransitionListeners p0 s t K with hp1
    set p2 := invokeTransitionListeners p1 s t (transitionLabel (some s) (some t))
      with hp2
    set p3 := invokeTransitionListeners p2 s t (transitionLabel none (some t))
      with hp3
    have hp0look : lookupA p0.listeners K = some (getL m K ++ [W]) := by
      show lookupA m1.listeners K = _
      rw [hm1l, storeA_lookup_self]
    have hp0Some : (promiseRec p0 pid).isSome = true := hm1Some
    have hp0With : resolvedWithOf p0 pid = none := hm1With
    have hp0Calls : resolveCallsOf p0 pid = 0 := hm1Calls
    obtain ⟨F1, F2, F3, F4⟩ := invokeTL_fire p0 s t K pid R cb rfl
      (getL m K) [W] hp0look (VQ K)
      (fun w hw => by
        rw [List.mem_singleton.mp hw]
        exact ⟨rfl, rfl, Nat.le_refl R, List.mem_singleton.mpr rfl⟩)
      (by simp) hp0Some
    have hP1Calls : resolveCallsOf p1 pid = 1 := by
      rw [F1, hp0Calls]
    have hP1With : resolvedWithOf p1 pid = some t := F2 hp0With
    have VQ1 : VisQuiet pid R p1 := by
      intro k r2 hr2 ha
      obtain ⟨r1, hr1, hid, hcbq, hmono⟩ := invokeTL_prov p0 s t K k r2 hr2
      by_cases hk : k = K
      · subst hk
        have hr1m : r1 ∈ getL m K ++ [W] := by
          rw [← hgK]
          exact hr1
        rcases List.mem_append.mp hr1m with hold | hw
        · have hq := VQ K r1 hold (hmono ha)
          unfold QuietRec at hq ⊢
          rw [hcbq]
          exact hq
        · exfalso
          have hreg : r2.regId ∈ cb.cancels := by
            rw [hid, List.mem_singleton.mp hw]
            exact List.mem_singleton.mpr rfl
          rw [F4 K r2 hr2 hreg] at ha
          exact Bool.noConfusion ha
      · have hr1m : r1 ∈ getL m k := by
          rw [← hgO k hk]
          exact hr1
        have hq := VQ k r1 hr1m (hmono ha)
        unfold QuietRec at hq ⊢
        rw [hcbq]
        exact hq
    have o2 := invokeTL_promObs p1 s t (transitionLabel (some s) (some t)) pid R
      (VQ1 _)
    have VQ2 : VisQuiet pid R p2 :=
      visQuiet_of_prov (invokeTL_prov p1 s t (transitionLabel (some s) (some t))) VQ1
    have o3 := invokeTL_promObs p2 s t (transitionLabel none (some t)) pid R (VQ2 _)
    have VQ3 : VisQuiet pid R p3 :=
      visQuiet_of_prov (invokeTL_prov p2 s t (transitionLabel none (some t))) VQ2
    have o4 := invokeTL_promObs p3 s t (transitionLabel none none) pid R (VQ3 _)
    have VQ4 : VisQuiet pid R m2 := by
      rw [hm2]
      exact visQuiet_of_prov (invokeTL_prov p3 s t (transitionLabel none none)) VQ3
    have hm2Calls : resolveCallsOf m2 pid = 1 := by
      rw [hm2, promObs_calls o4, promObs_calls o3, promObs_calls o2]
      exact hP1Calls
    have hm2With : resolvedWithOf m2 pid = some t := by
      rw [hm2, promObs_with o4, promObs_with o3, promObs_with o2]
      exact hP1With
    refine ⟨hm2Calls, hm2With, ?_⟩
    intro path
    obtain ⟨hq1, hq2⟩ := applySetStates_quiet path m2 pid R VQ4
    exact ⟨(promObs_calls hq1).trans hm2Calls, (promObs_with hq1).trans hm2With⟩

theorem c5_waitUntilLeft_witness :
    MachineFresh mAB ∧
    resolveCallsOf (waitUntilLeft mAB sA).1 mAB.nextPid = 0 ∧
    resolveCallsOf
      (applySetStates (setState (waitUntilLeft mAB sA).1 sB).1 [sA]) mAB.nextPid = 1 ∧
    resolvedWithOf
      (applySetStates (setState (waitUntilLeft mAB sA).1 sB).1 [sA]) mAB.nextPid =
      some sB := by
  have h := c5_waitUntilLeft mAB sA (by decide)
  have hreg := h.2.2 rfl
  have hfirst := hreg.2.2 sB (setState (waitUntilLeft mAB sA).1 sB).1 (by decide)
  exact ⟨by decide, hreg.1, (hfirst.2.2 [sA]).1, (hfirst.2.2 [sA]).2⟩

/-! Key lemmas for enter-wait keys. -/

theorem leaveKey_ne {f : State} (hf : PlainLabel f.label) (y : Option State)
    (c : State) : transitionLabel (some f) y ≠ transitionLabel none (some c) := by
  unfold transitionLabel
  rw [labelOrStar_plain hf, String.append_assoc, String.append_assoc]
  exact plain_append_ne_star_append hf _ _

theorem enterKey_ne {x c : State} (hc : PlainLabel c.label)
    (hx : x.label ≠ c.label) :
    transitionLabel none (some x) ≠ transitionLabel none (some c) := by
  unfold transitionLabel
  rw [String.append_assoc, String.append_assoc]
  intro h
  have h2 := str_append_cancel_left (str_append_cancel_left h)
  by_cases hxe : x.label = ""
  · rw [show labelOrStar (some x) = starStr from by
      show (if x.label = "" then starStr else x.label) = starStr
      rw [if_pos hxe], labelOrStar_plain hc] at h2
    exact plain_ne_star hc h2.symm
  · rw [show labelOrStar (some x) = x.label from by
      show (if x.label = "" then starStr else x.label) = x.label
      rw [if_neg hxe], labelOrStar_plain hc] at h2
    exact hx h2

theorem wildcard_ne_enterKey {c : State} (hc : PlainLabel c.label) :
    transitionLabel none none ≠ transitionLabel none (some c) := by
  unfold transitionLabel
  rw [labelOrStar_plain hc, String.append_assoc, String.append_assoc]
  intro h
  exact plain_ne_star hc (str_append_cancel_left (str_append_cancel_left h)).symm

theorem enterKey_eq_of_label_eq {t c : State} (hc : PlainLabel c.label)
    (h : t.label = c.label) :
    transitionLabel none (some t) = transitionLabel none (some c) := by
  unfold transitionLabel
  rw [show labelOrStar (some t) = labelOrStar (some c) from by
    show (if t.label = "" then starStr else t.label) =
      if c.label = "" then starStr else c.label
    rw [h]]

theorem enterKey_inj {c d : State} (hc : PlainLabel c.label)
    (hd : PlainLabel d.label)
    (h : transitionLabel none (some c) = transitionLabel none (some d)) :
    c.label = d.label := by
  unfold transitionLabel at h
  rw [String.append_assoc, String.append_assoc] at h
  have h2 := str_append_cancel_left (str_append_cancel_left h)
  rwa [labelOrStar_plain hc, labelOrStar_plain hd] at h2

theorem nodup_wkeys {cs : List State} (hplain : ∀ c ∈ cs, PlainLabel c.label)
    (h : (cs.map (fun c => c.label)).Nodup) :
    (cs.map (fun c => transitionLabel none (some c))).Nodup := by
  induction cs with
  | nil => exact List.nodup_nil
  | cons c rest ih =>
    rw [List.map_cons, List.nodup_cons]
    rw [List.map_cons, List.nodup_cons] at h
    refine ⟨?_, ih (fun d hd => hplain d (List.mem_cons_of_mem _ hd)) h.2⟩
    intro hmem
    obtain ⟨d, hd, hdk⟩ := List.mem_map.mp hmem
    have := enterKey_inj (hplain d (List.mem_cons_of_mem _ hd))
      (hplain c (List.mem_cons_self _ _)) hdk
    exact h.1 (List.mem_map.mpr ⟨d, hd, this⟩)

/-! The registration loop of `waitUntilEnteredOneOf`. -/

theorem getFinished_promises_eq {m m2 : Machine} (h : m2.promises = m.promises)
    (pid : Nat) : getFinished m2 pid = getFinished m pid := by
  unfold getFinished promiseRec
  rw [h]

theorem waitRegLoop_shape (pid : Nat) (ids : List Nat) :
    ∀ (cs2 : List State) (mm : Machine),
    getFinished mm pid = false →
    (cs2.map (fun c => transitionLabel none (some c))).Nodup →
    (waitRegLoop pid ids mm cs2).promises = mm.promises ∧
    (waitRegLoop pid ids mm cs2).nextRegId = mm.nextRegId + cs2.length ∧
    (∀ k, k ∉ cs2.map (fun c => transitionLabel none (some c)) →
      lookupA (waitRegLoop pid ids mm cs2).listeners k = lookupA mm.listeners k) ∧
    (∀ j, ∀ h : j < cs2.length,
      lookupA (waitRegLoop pid ids mm cs2).listeners
        (transitionLabel none (some (cs2.get ⟨j, h⟩))) =
      some (getL mm (transitionLabel none (some (cs2.get ⟨j, h⟩))) ++
        [⟨mm.nextRegId + j, none, some (cs2.get ⟨j, h⟩), true,
          enterWaitCallback ids pid⟩])) := by
  intro cs2
  induction cs2 with
  | nil =>
    intro mm _ _
    exact ⟨rfl, rfl, fun k _ => rfl, fun j h => absurd h (by simp)⟩
  | cons c rest ih =>
    intro mm hfin hnd
    rw [List.map_cons, List.nodup_cons] at hnd
    rw [waitRegLoop]
    have hfin2 : getFinished ((onEnterState mm c (enterWaitCallback ids pid)).1) pid =
        false := by
      rw [getFinished_promises_eq rfl pid]
      exact hfin
    rw [if_neg (by rw [hfin2]; simp)]
    set m2 := (onEnterState mm c (enterWaitCallback ids pid)).1 with hm2def
    have hm2l : m2.listeners = storeA mm.listeners (transitionLabel none (some c))
        (getL mm (transitionLabel none (some c)) ++
          [⟨mm.nextRegId, none, some c, true, enterWaitCallback ids pid⟩]) := rfl
    have hm2n : m2.nextRegId = mm.nextRegId + 1 := rfl
    obtain ⟨p1, p2, p3, p4⟩ := ih m2 hfin2 hnd.2
    refine ⟨p1, ?_, ?_, ?_⟩
    · rw [p2, hm2n, List.length_cons]
      omega
    · intro k hk
      have hk1 : k ∉ rest.map (fun c => transitionLabel none (some c)) := by
        intro hc
        exact hk (List.mem_cons_of_mem _ hc)
      have hk2 : k ≠ transitionLabel none (some c) := by
        intro hc
        exact hk (hc ▸ List.mem_cons_self _ _)
      rw [p3 k hk1, hm2l, storeA_lookup_other _ _ hk2]
    · intro j h
      cases j with
      | zero =>
        have hkc : transitionLabel none (some c) ∉
            rest.map (fun c => transitionLabel none (some c)) := hnd.1
        show lookupA (waitRegLoop pid ids m2 rest).listeners
          (transitionLabel none (some c)) = _
        rw [p3 _ hkc, hm2l, storeA_lookup_self]
        rfl
      | succ i =>
        have hi : i < rest.length := by simpa using h
        have hp4 := p4 i hi
        show lookupA (waitRegLoop pid ids m2 rest).listeners
          (transitionLabel none (some (rest.get ⟨i, hi⟩))) = _
        rw [hp4]
        have hgl : getL m2 (transitionLabel none (some (rest.get ⟨i, hi⟩))) =
            getL mm (transitionLabel none (some (rest.get ⟨i, hi⟩))) := by
          unfold getL
          rw [hm2l, storeA_lookup_other]
          intro hc
          exact hnd.1 (hc ▸ List.mem_map.mpr ⟨rest.get ⟨i, hi⟩, List.get_mem _ _ _, rfl⟩)
        rw [hgl, hm2n]
        have harith : mm.nextRegId + 1 + i = mm.nextRegId + (i + 1) := by omega
        rw [harith]
        rfl

/-- The pending configuration `waitUntilEnteredOneOf` leaves behind and
any non-entering activity preserves: the promise is untouched, each
candidate's enter key holds its wait-block (preceded by quiet leftovers),
and every other key is quiet. -/
def C6Pending (pid R : Nat) (cs : List State) (M : Machine) : Prop :=
  resolveCallsOf M pid = 0 ∧
  resolvedWithOf M pid = none ∧
  (promiseRec M pid).isSome = true ∧
  (∀ j, ∀ h : j < cs.length, ∃ olds, QuietList pid R olds ∧
    lookupA M.listeners (transitionLabel none (some (cs.get ⟨j, h⟩))) =
      some (olds ++ [⟨R + j, none, some (cs.get ⟨j, h⟩), true,
        enterWaitCallback (List.range' R cs.length) pid⟩])) ∧
  (∀ k, k ∉ cs.map (fun c => transitionLabel none (some c)) →
    QuietList pid R (getL M k))

theorem c6_phase_preserve (pid R : Nat) (cs : List State) (M : Machine)
    (f t : State) (K : String)
    (hK : K ∉ cs.map (fun c => transitionLabel none (some c)))
    (hP : C6Pending pid R cs M) :
    C6Pending pid R cs (invokeTransitionListeners M f t K) := by
  obtain ⟨h1, h2, h3, h4, h5⟩ := hP
  have hqK : QuietList pid R (getL M K) := h5 K hK
  have obs := invokeTL_promObs M f t K pid R hqK
  obtain ⟨CS, hCS, hsh⟩ := invokeTL_quiet_shape M f t K pid R hqK
  have hprov := invokeTL_prov M f t K
  refine ⟨(promObs_calls obs).trans h1, (promObs_with obs).trans h2,
    (promObs_isSome obs).trans h3, ?_, ?_⟩
  · intro j h
    obtain ⟨olds, ho1, ho2⟩ := h4 j h
    have hkK : transitionLabel none (some (cs.get ⟨j, h⟩)) ≠ K := by
      intro hc
      exact hK (hc ▸ List.mem_map.mpr ⟨cs.get ⟨j, h⟩, List.get_mem _ _ _, rfl⟩)
    refine ⟨applyCancels CS olds, quietList_applyCancels ho1, ?_⟩
    rw [hsh _ hkK, ho2, Option.map_some', applyCancels_append]
    have hW : applyCancels CS [⟨R + j, none, some (cs.get ⟨j, h⟩), true,
        enterWaitCallback (List.range' R cs.length) pid⟩] =
        [⟨R + j, none, some (cs.get ⟨j, h⟩), true,
          enterWaitCallback (List.range' R cs.length) pid⟩] :=
      applyCancels_of_ge hCS (by
        intro w hw
        rw [List.mem_singleton.mp hw]
        exact Nat.le_add_right R j)
    rw [hW]
  · intro k hk r2 hr2 ha
    obtain ⟨r1, hr1, hid, hcb, hmono⟩ := hprov k r2 hr2
    have hq := h5 k hk r1 hr1 (hmono ha)
    unfold QuietRec at hq ⊢
    rw [hcb]
    exact hq

theorem c6Pending_goodActive {pid R : Nat} {cs : List State} {M : Machine}
    (hP : C6Pending pid R cs M) :
    ∀ k, ∀ r ∈ getL M k, r.active = true →
      QuietRec pid R r ∨ (r.regId ∈ List.range' R cs.length ∧
        r.callBack = enterWaitCallback (List.range' R cs.length) pid) := by
  obtain ⟨-, -, -, h4, h5⟩ := hP
  intro k r hr ha
  by_cases hk : k ∈ cs.map (fun c => transitionLabel none (some c))
  · obtain ⟨c, hc, hck⟩ := List.mem_map.mp hk
    obtain ⟨⟨j, hj⟩, hget⟩ := List.mem_iff_get.mp hc
    obtain ⟨olds, ho1, ho2⟩ := h4 j hj
    have hkk : k = transitionLabel none (some (cs.get ⟨j, hj⟩)) := by
      rw [hget]
      exact hck.symm
    have hg : getL M k = olds ++ [⟨R + j, none, some (cs.get ⟨j, hj⟩), true,
        enterWaitCallback (List.range' R cs.length) pid⟩] := by
      rw [hkk]
      unfold getL
      rw [ho2]
      rfl
    rw [hg] at hr
    rcases List.mem_append.mp hr with hmem | hmem
    · exact Or.inl (ho1 r hmem ha)
    · right
      rw [List.mem_singleton.mp hmem]
      exact ⟨List.mem_range'_1.mpr ⟨Nat.le_add_right R j,
        show R + j < R + cs.length by omega⟩, rfl⟩
  · exact Or.inl (h5 k hk r hr ha)

theorem c6_step_preserve {pid R : Nat} {cs : List State} {M : Machine} {x : State}
    (hplain : ∀ c ∈ cs, PlainLabel c.label)
    (hf : PlainLabel M.state.label) (hxp : PlainLabel x.label)
    (hx : x.label ∉ cs.map (fun c => c.label))
    (hP : C6Pending pid R cs M) :
    C6Pending pid R cs (setState M x).1 ∧
    PlainLabel (setState M x).1.state.label := by
  cases hc : canGoToState M x with
  | error e =>
    rw [setState_of_canGo_error hc]
    exact ⟨hP, hf⟩
  | ok b =>
    cases b with
    | false =>
      rw [setState_of_canGo_false hc]
      exact ⟨hP, hf⟩
    | true =>
      rw [setState_of_canGo_true hc]
      have hP0 : C6Pending pid R cs { M with state := x } := hP
      have hK1 : transitionLabel (some M.state) none ∉
          cs.map (fun c => transitionLabel none (some c)) := by
        intro hmem
        obtain ⟨c, hcm, hck⟩ := List.mem_map.mp hmem
        exact leaveKey_ne hf none c hck.symm
      have hK2 : transitionLabel (some M.state) (some x) ∉
          cs.map (fun c => transitionLabel none (some c)) := by
        intro hmem
        obtain ⟨c, hcm, hck⟩ := List.mem_map.mp hmem
        exact leaveKey_ne hf (some x) c hck.symm
      have hK3 : transitionLabel none (some x) ∉
          cs.map (fun c => transitionLabel none (some c)) := by
        intro hmem
        obtain ⟨c, hcm, hck⟩ := List.mem_map.mp hmem
        refine enterKey_ne (hplain c hcm) ?_ hck.symm
        intro heq
        exact hx (List.mem_map.mpr ⟨c, hcm, heq.symm⟩)
      have hK4 : transitionLabel none none ∉
          cs.map (fun c => transitionLabel none (some c)) := by
        intro hmem
        obtain ⟨c, hcm, hck⟩ := List.mem_map.mp hmem
        exact wildcard_ne_enterKey (hplain c hcm) hck.symm
      constructor
      · show C6Pending pid R cs (invokeAllTransitionListeners
          { M with state := x } M.state x)
        unfold invokeAllTransitionListeners
        dsimp only
        exact c6_phase_preserve pid R cs _ M.state x _ hK4
          (c6_phase_preserve pid R cs _ M.state x _ hK3
            (c6_phase_preserve pid R cs _ M.state x _ hK2
              (c6_phase_preserve pid R cs _ M.state x _ hK1 hP0)))
      · show PlainLabel (invokeAllTransitionListeners
          { M with state := x } M.state x).state.label
        rw [(invokeAll_static { M with state := x } M.state x).1]
        exact hxp

theorem c6_applyPre (pid R : Nat) (cs : List State)
    (hplain : ∀ c ∈ cs, PlainLabel c.label) :
    ∀ (pre : List State) (M : Machine),
    (∀ x ∈ pre, PlainLabel x.label ∧ x.label ∉ cs.map (fun c => c.label)) →
    PlainLabel M.state.label → C6Pending pid R cs M →
    C6Pending pid R cs (applySetStates M pre) ∧
    PlainLabel (applySetStates M pre).state.label := by
  intro pre
  induction pre with
  | nil => exact fun M _ hf hP => ⟨hP, hf⟩
  | cons x rest ih =>
    intro M hpre hf hP
    obtain ⟨hxp, hxl⟩ := hpre x (List.mem_cons_self _ _)
    obtain ⟨hP1, hf1⟩ := c6_step_preserve hplain hf hxp hxl hP
    exact ih (setState M x).1
      (fun y hy => hpre y (List.mem_cons_of_mem _ hy)) hf1 hP1

theorem c6_enter_fire {pid R : Nat} {cs : List State} {M : Machine} {t : State}
    {m2 : Machine}
    (hplain : ∀ c ∈ cs, PlainLabel c.label)
    (hf : PlainLabel M.state.label)
    (ht : t.label ∈ cs.map (fun c => c.label))
    (hP : C6Pending pid R cs M)
    (hset : setState M t = (m2, none)) :
    resolveCallsOf m2 pid = 1 ∧ resolvedWithOf m2 pid = some t ∧
    VisQuiet pid R m2 := by
  obtain ⟨hc, hm2⟩ := setState_none_inv hset
  unfold invokeAllTransitionListeners at hm2
  dsimp only at hm2
  set f := M.state with hfdef
  set p0 : Machine := { M with state := t } with hp0
  set p1 := invokeTransitionListeners p0 f t (transitionLabel (some f) none)
    with hp1
  set p2 := invokeTransitionListeners p1 f t (transitionLabel (some f) (some t))
    with hp2
  set p3 := invokeTransitionListeners p2 f t (transitionLabel none (some t))
    with hp3
  have hP0 : C6Pending pid R cs p0 := hP
  have hK1 : transitionLabel (some f) none ∉
      cs.map (fun c => transitionLabel none (some c)) := by
    intro hmem
    obtain ⟨c, hcm, hck⟩ := List.mem_map.mp hmem
    exact leaveKey_ne hf none c hck.symm
  have hK2 : transitionLabel (some f) (some t) ∉
      cs.map (fun c => transitionLabel none (some c)) := by
    intro hmem
    obtain ⟨c, hcm, hck⟩ := List.mem_map.mp hmem
    exact leaveKey_ne hf (some t) c hck.symm
  have hP1 : C6Pending pid R cs p1 :=
    c6_phase_preserve pid R cs p0 f t _ hK1 hP0
  have hP2 : C6Pending pid R cs p2 :=
    c6_phase_preserve pid R cs p1 f t _ hK2 hP1
  obtain ⟨c, hcm, hclab⟩ := List.mem_map.mp ht
  obtain ⟨⟨j, hj⟩, hget⟩ := List.mem_iff_get.mp hcm
  have hkey : transitionLabel none (some t) =
      transitionLabel none (some (cs.get ⟨j, hj⟩)) := by
    rw [hget]
    exact enterKey_eq_of_label_eq (hplain c hcm) hclab.symm
  obtain ⟨olds, hq, hlk⟩ := hP2.2.2.2.1 j hj
  have hlk2 : lookupA p2.listeners (transitionLabel none (some t)) =
      some (olds ++ [⟨R + j, none, some (cs.get ⟨j, hj⟩), true,
        enterWaitCallback (List.range' R cs.length) pid⟩]) := by
    rw [hkey]
    exact hlk
  obtain ⟨F1, F2, F3, F4⟩ := invokeTL_fire p2 f t (transitionLabel none (some t))
    pid R (enterWaitCallback (List.range' R cs.length) pid) rfl olds
    [⟨R + j, none, some (cs.get ⟨j, hj⟩), true,
      enterWaitCallback (List.range' R cs.length) pid⟩] hlk2 hq
    (fun w hw => by
      rw [List.mem_singleton.mp hw]
      exact ⟨rfl, rfl, Nat.le_add_right R j,
        List.mem_range'_1.mpr ⟨Nat.le_add_right R j,
          show R + j < R + cs.length by omega⟩⟩)
    (by simp) hP2.2.2.1
  have hcalls3 : resolveCallsOf p3 pid = 1 := by
    rw [← hp3] at F1
    rw [F1, hP2.1]
  have hwith3 : resolvedWithOf p3 pid = some t := by
    rw [← hp3] at F2
    exact F2 hP2.2.1
  have VQ3 : VisQuiet pid R p3 := by
    intro k r2 hr2 ha
    obtain ⟨r1, hr1, hid, hcb, hmono⟩ := invokeTL_prov p2 f t
      (transitionLabel none (some t)) k r2 hr2
    rcases c6Pending_goodActive hP2 k r1 hr1 (hmono ha) with hg | hg
    · unfold QuietRec at hg ⊢
      rw [hcb]
      exact hg
    · exfalso
      have hRmem : r2.regId ∈
          (enterWaitCallback (List.range' R cs.length) pid).cancels := by
        rw [hid]
        exact hg.1
      rw [F4 k r2 hr2 hRmem] at ha
      exact Bool.noConfusion ha
  have o4 := invokeTL_promObs p3 f t (transitionLabel none none) pid R (VQ3 _)
  have VQ4 : VisQuiet pid R m2 := by
    rw [hm2]
    exact visQuiet_of_prov (invokeTL_prov p3 f t (transitionLabel none none)) VQ3
  refine ⟨?_, ?_, VQ4⟩
  · rw [hm2, promObs_calls o4]
    exact hcalls3
  · rw [hm2, promObs_with o4]
    exact hwith3

theorem waitUntilEnteredOneOf_eq_immediate {m : Machine} {cs : List State}
    (h : m.state ∈ cs) :
    waitUntilEnteredOneOf m cs =
      (doResolve (newPromise m).1 m.nextPid m.state, m.nextPid) := by
  unfold waitUntilEnteredOneOf
  dsimp only
  rw [if_pos (show (newPromise m).1.state ∈ cs from h)]
  rfl

theorem waitUntilEnteredOneOf_eq_registered {m : Machine} {cs : List State}
    (h : m.state ∉ cs) :
    waitUntilEnteredOneOf m cs =
      (waitRegLoop m.nextPid (List.range' m.nextRegId cs.length)
        (newPromise m).1 cs, m.nextPid) := by
  unfold waitUntilEnteredOneOf
  dsimp only
  rw [if_neg (show ¬(newPromise m).1.state ∈ cs from h)]
  rfl

/-- Claim C6: `waitUntilEntered(s)` is definitionally
`waitUntilEnteredOneOf([s])`; `waitUntilEnteredOneOf(states)` resolves its
promise immediately with the current state (exactly one `resolve` call, no
registration) when the current state is already a member (by identity) of
`states`; otherwise it registers one enter-listener per candidate in list
order (consecutive registration ids, appended under each candidate's
`'* --> label'` key) and the promise is pending; it stays pending across
any further `setState` activity that does not enter a candidate label, and
the first `setState` that does enter one resolves the promise exactly once
with the state transitioned into — the firing wait-block cancels itself and
all its sibling registrations, so across any further sequence of `setState`
calls the resolution count stays at one with that same state: no second
resolution ever occurs, even if several candidates are entered in
succession.  (Labels are assumed ordinary — non-empty, `'*'`-free — and
pairwise distinct, as the key scheme presupposes.) -/
theorem c6_waitUntilEnteredOneOf (m : Machine) (cs : List State)
    (hF : MachineFresh m) (hplain : ∀ c ∈ cs, PlainLabel c.label)
    (hnd : (cs.map (fun c => c.label)).Nodup)
    (hm0 : PlainLabel m.state.label) :
    (∀ s, waitUntilEntered m s = waitUntilEnteredOneOf m [s]) ∧
    (waitUntilEnteredOneOf m cs).2 = m.nextPid ∧
    (m.state ∈ cs →
      resolveCallsOf (waitUntilEnteredOneOf m cs).1 m.nextPid = 1 ∧
      resolvedWithOf (waitUntilEnteredOneOf m cs).1 m.nextPid = some m.state ∧
      (waitUntilEnteredOneOf m cs).1.listeners = m.listeners) ∧
    (m.state ∉ cs →
      (∀ j, ∀ h : j < cs.length,
        lookupA (waitUntilEnteredOneOf m cs).1.listeners
          (transitionLabel none (some (cs.get ⟨j, h⟩))) =
        some (getL m (transitionLabel none (some (cs.get ⟨j, h⟩))) ++
          [⟨m.nextRegId + j, none, some (cs.get ⟨j, h⟩), true,
            enterWaitCallback (List.range' m.nextRegId cs.length) m.nextPid⟩])) ∧
      resolveCallsOf (waitUntilEnteredOneOf m cs).1 m.nextPid = 0 ∧
      resolvedWithOf (waitUntilEnteredOneOf m cs).1 m.nextPid = none ∧
      (∀ pre, (∀ x ∈ pre, PlainLabel x.label ∧
          x.label ∉ cs.map (fun c => c.label)) →
        resolveCallsOf (applySetStates (waitUntilEnteredOneOf m cs).1 pre)
          m.nextPid = 0 ∧
        resolvedWithOf (applySetStates (waitUntilEnteredOneOf m cs).1 pre)
          m.nextPid = none ∧
        ∀ t m2, t.label ∈ cs.map (fun c => c.label) →
          setState (applySetStates (waitUntilEnteredOneOf m cs).1 pre) t =
            (m2, none) →
          resolveCallsOf m2 m.nextPid = 1 ∧
          resolvedWithOf m2 m.nextPid = some t ∧
          ∀ path, resolveCallsOf (applySetStates m2 path) m.nextPid = 1 ∧
            resolvedWithOf (applySetStates m2 path) m.nextPid = some t)) := by
  set pid := m.nextPid with hpid
  set R := m.nextRegId with hR
  have hrec := newPromise_rec m hF.2
  have hrecCalls : resolveCallsOf (newPromise m).1 pid = 0 := by
    unfold resolveCallsOf
    rw [hrec]
    rfl
  have hrecWith : resolvedWithOf (newPromise m).1 pid = none := by
    unfold resolvedWithOf
    rw [hrec]
    rfl
  have hrecSome : (promiseRec (newPromise m).1 pid).isSome = true := by
    rw [hrec]
    rfl
  refine ⟨fun s => rfl, ?_, ?_, ?_⟩
  · unfold waitUntilEnteredOneOf
    dsimp only
    split <;> rfl
  · intro hmem
    rw [waitUntilEnteredOneOf_eq_immediate hmem]
    obtain ⟨d1, d2, d3⟩ := doResolve_self_obs (newPromise m).1 pid m.state hrecSome
    refine ⟨?_, ?_, rfl⟩
    · rw [d1, hrecCalls]
    · rw [d2, hrecWith]
  · intro hnmem
    rw [waitUntilEnteredOneOf_eq_registered hnmem]
    set mm := (newPromise m).1 with hmm
    set ids := List.range' R cs.length with hids
    have hfin : getFinished mm pid = false := by
      unfold getFinished
      rw [hrec]
      rfl
    have hwnd := nodup_wkeys hplain hnd
    obtain ⟨s1, s2, s3, s4⟩ := waitRegLoop_shape pid ids cs mm hfin hwnd
    set M1 := waitRegLoop pid ids mm cs with hM1
    have hobs : PromObs M1 pid = PromObs mm pid := promObs_of_promises_eq s1 pid
    refine ⟨?_, (promObs_calls hobs).trans hrecCalls,
      (promObs_with hobs).trans hrecWith, ?_⟩
    · intro j h
      exact s4 j h
    · intro pre hpre
      have VQ : VisQuiet pid R m := machineFresh_visQuiet hF
      have hP1 : C6Pending pid R cs M1 := by
        refine ⟨(promObs_calls hobs).trans hrecCalls,
          (promObs_with hobs).trans hrecWith,
          (promObs_isSome hobs).trans hrecSome, ?_, ?_⟩
        · intro j h
          exact ⟨getL m (transitionLabel none (some (cs.get ⟨j, h⟩))), VQ _, s4 j h⟩
        · intro k hk
          have hg : getL M1 k = getL m k := getL_eq_of_lookup_eq (s3 k hk)
          rw [hg]
          exact VQ k
      have hM1plain : PlainLabel M1.state.label := by
        rw [(waitRegLoop_frame pid ids cs mm).1]
        exact hm0
      obtain ⟨hPpre, hfpre⟩ := c6_applyPre pid R cs hplain pre M1 hpre hM1plain hP1
      refine ⟨hPpre.1, hPpre.2.1, ?_⟩
      intro t m2 ht hset
      obtain ⟨e1, e2, e3⟩ := c6_enter_fire hplain hfpre ht hPpre hset
      refine ⟨e1, e2, ?_⟩
      intro path
      obtain ⟨q1, q2⟩ := applySetStates_quiet path m2 pid R e3
      exact ⟨(promObs_calls q1).trans e1, (promObs_with q1).trans e2⟩

theorem c6_waitUntilEnteredOneOf_witness :
    MachineFresh mAB ∧
    resolveCallsOf (waitUntilEnteredOneOf mAB [sB, sC]).1 mAB.nextPid = 0 ∧
    resolveCallsOf (applySetStates (setState
      (applySetStates (waitUntilEnteredOneOf mAB [sB, sC]).1 []) sB).1 [sA])
      mAB.nextPid = 1 ∧
    resolvedWithOf (applySetStates (setState
      (applySetStates (waitUntilEnteredOneOf mAB [sB, sC]).1 []) sB).1 [sA])
      mAB.nextPid = some sB := by
  have h := c6_waitUntilEnteredOneOf mAB [sB, sC] (by decide) (by decide)
    (by decide) (by decide)
  have hreg := h.2.2.2 (by decide)
  have hpre := hreg.2.2.2 [] (fun x hx => absurd hx (List.not_mem_nil x))
  have hfire := hpre.2.2 sB (setState
    (applySetStates (waitUntilEnteredOneOf mAB [sB, sC]).1 []) sB).1
    (by decide) (by decide)
  exact ⟨by decide, hreg.2.1, (hfire.2.2 [sA]).1, (hfire.2.2 [sA]).2⟩
